import Mathlib

/-!
Verification of the HTML content-extraction core (`apps/api/native/src/html.rs`).

The Rust source is shallowly embedded below.  The parsed DOM is modelled as an
inductive tree of element / text / comment nodes (the HTML parser itself is an
out-of-scope collaborator: every operation of the source receives the already
parsed tree).  CSS selector matching, URL parsing and joining, and the
`nodesig` fingerprint function are likewise out-of-scope collaborators; they
are modelled concretely but minimally, faithful to the fragment of their
behaviour the source exercises.  Strings are Lean `String`s; all character
level work is done on `String.data` with explicit list functions so that every
definition evaluates inside the kernel.
-/

/-! ## String helpers (explicit, kernel-evaluable) -/

/-- ASCII whitespace as matched by the source's `trim` / `\s`. -/
def isWsChar (c : Char) : Bool :=
  c = ' ' || c = '\t' || c = '\n' || c = '\r' || c = '\x0b' || c = '\x0c'

/-- Split a character list on a separator character; always non-empty. -/
def splitOnCharL (sep : Char) : List Char → List (List Char)
  | [] => [[]]
  | a :: t =>
    match splitOnCharL sep t with
    | [] => if a = sep then [[], []] else [[a]]
    | h :: r => if a = sep then [] :: h :: r else (a :: h) :: r

/-- Split a string on a separator character. -/
def splitOnChar (sep : Char) (s : String) : List String :=
  (splitOnCharL sep s.data).map String.mk

/-- Trim ASCII whitespace from both ends of a character list. -/
def trimL (l : List Char) : List Char :=
  ((l.dropWhile isWsChar).reverse.dropWhile isWsChar).reverse

/-- Trim ASCII whitespace from both ends of a string (Rust `str::trim`). -/
def trimStr (s : String) : String := ⟨trimL s.data⟩

/-- `s` starts with `p` (Rust `str::starts_with`). -/
def strStartsWith (s p : String) : Bool := p.data.isPrefixOf s.data

/-- `s` ends with `p` (Rust `str::ends_with`). -/
def strEndsWith (s p : String) : Bool := p.data.isSuffixOf s.data

/-- `s` contains `p` as a substring (Rust `str::contains`). -/
def strContains (s p : String) : Bool :=
  s.data.tails.any fun t => p.data.isPrefixOf t

/-- Lowercase every character (Rust `str::to_lowercase`, ASCII fragment). -/
def toLowerStr (s : String) : String := ⟨s.data.map Char.toLower⟩

/-- Drop the first `n` characters. -/
def strDrop (s : String) (n : Nat) : String := ⟨s.data.drop n⟩

/-- Join a list of strings with a separator (Rust `slice::join`). -/
def joinWith (sep : String) : List String → String
  | [] => ""
  | [a] => a
  | a :: t => a ++ sep ++ joinWith sep t

/-! ## The document model

`kuchikiki` trees are modelled as values.  The document root node produced by
the parser (a `Document` node, never an element) is represented as an element
with the reserved tag `"#document"`, which no selector of the source matches.
Attributes are an association list with first-key-wins lookup (the parser
already collapsed duplicates; insertion replaces an existing key). -/

inductive Node where
  | element : String → List (String × String) → List Node → Node
  | text : String → Node
  | comment : String → Node

/-- Structural induction for the nested tree type, with the membership form
of the child hypothesis. -/
theorem Node.inductionOn (P : Node → Prop)
    (htext : ∀ s, P (.text s)) (hcomment : ∀ s, P (.comment s))
    (helem : ∀ t a cs, (∀ c ∈ cs, P c) → P (.element t a cs)) :
    ∀ n, P n := by
  have key : ∀ k (n : Node), sizeOf n ≤ k → P n := by
    intro k
    induction k with
    | zero =>
      intro n h
      cases n <;> simp_arith at h
    | succ k ih =>
      intro n h
      match n with
      | .text s => exact htext s
      | .comment s => exact hcomment s
      | .element t a cs =>
        apply helem
        intro c hc
        apply ih
        have h1 : sizeOf c < sizeOf cs := List.sizeOf_lt_of_mem hc
        have h2 : sizeOf cs < sizeOf (Node.element t a cs) := by simp_arith
        omega
  exact fun n => key (sizeOf n) n (Nat.le_refl _)

mutual

def nodeBeq : Node → Node → Bool
  | .element t1 a1 c1, .element t2 a2 c2 => t1 == t2 && a1 == a2 && nodeBeqL c1 c2
  | .text s1, .text s2 => s1 == s2
  | .comment s1, .comment s2 => s1 == s2
  | _, _ => false
termination_by structural a => a

def nodeBeqL : List Node → List Node → Bool
  | [], [] => true
  | a :: at_, b :: bt => nodeBeq a b && nodeBeqL at_ bt
  | _, _ => false
termination_by structural a => a

end

theorem nodeBeq_iff : ∀ a b, nodeBeq a b = true ↔ a = b := by
  intro a
  induction a using Node.inductionOn with
  | htext s => intro b; cases b <;> simp [nodeBeq]
  | hcomment s => intro b; cases b <;> simp [nodeBeq]
  | helem t a cs ih =>
    have listIff : ∀ (l : List Node), (∀ c ∈ l, ∀ b, nodeBeq c b = true ↔ c = b) →
        ∀ m, nodeBeqL l m = true ↔ l = m := by
      intro l
      induction l with
      | nil => intro _ m; cases m <;> simp [nodeBeqL]
      | cons c ct ihl =>
        intro hmem m
        cases m with
        | nil => simp [nodeBeqL]
        | cons d dt =>
          simp only [nodeBeqL, Bool.and_eq_true]
          rw [hmem c (by simp) d, ihl (fun x hx => hmem x (by simp [hx])) dt]
          simp
    intro b
    cases b <;> simp [nodeBeq]
    rename_i t2 a2 c2
    rw [listIff cs ih c2]
    simp [and_assoc]

instance : DecidableEq Node := fun a b => decidable_of_iff _ (nodeBeq_iff a b)

/-- Attribute lookup (`attributes.borrow().get(name)`). -/
def getAttrL : List (String × String) → String → Option String
  | [], _ => none
  | (k, v) :: t, name => if k = name then some v else getAttrL t name

/-- Attribute insertion (`attributes.borrow_mut().insert(name, value)`):
replaces an existing entry, otherwise appends. -/
def setAttrL : List (String × String) → String → String → List (String × String)
  | [], name, value => [(name, value)]
  | (k, v) :: t, name, value =>
    if k = name then (k, value) :: t else (k, v) :: setAttrL t name value

/-- Attribute lookup on a node (`none` on text/comment nodes). -/
def Node.attr : Node → String → Option String
  | .element _ attrs _, name => getAttrL attrs name
  | _, _ => none

/-- Attribute insertion on a node (identity on text/comment nodes). -/
def Node.setAttr : Node → String → String → Node
  | .element t attrs cs, name, value => .element t (setAttrL attrs name value) cs
  | n, _, _ => n

def Node.isElem : Node → Bool
  | .element _ _ _ => true
  | _ => false

def Node.tag : Node → Option String
  | .element t _ _ => some t
  | _ => none

def Node.children : Node → List Node
  | .element _ _ cs => cs
  | _ => []

mutual

/-- `NodeRef::text_contents`: concatenation of all text descendants in order. -/
def textContents : Node → String
  | .text s => s
  | .comment _ => ""
  | .element _ _ cs => textContentsL cs
termination_by structural n => n

def textContentsL : List Node → String
  | [] => ""
  | c :: cs => textContents c ++ textContentsL cs
termination_by structural l => l

end

mutual

/-- Inclusive descendants in tree (pre-) order, as used by `select`. -/
def descendants : Node → List Node
  | .element t a cs => .element t a cs :: descendantsL cs
  | n => [n]
termination_by structural n => n

def descendantsL : List Node → List Node
  | [] => []
  | c :: cs => descendants c ++ descendantsL cs
termination_by structural l => l

end

mutual

/-- Number of element descendants (inclusive) carrying a given tag. -/
def countTag : Node → String → Nat
  | .element t _ cs, target => (if t = target then 1 else 0) + countTagL cs target
  | _, _ => 0
termination_by structural n _ => n

def countTagL : List Node → String → Nat
  | [], _ => 0
  | c :: cs, target => countTag c target + countTagL cs target
termination_by structural l _ => l

end

mutual

/-- Erase all attributes, keeping the tag/text/comment structure; used to
state element-presence (frame) properties independently of attribute
rewriting. -/
def eraseAttrs : Node → Node
  | .element t _ cs => .element t [] (eraseAttrsL cs)
  | n => n
termination_by structural n => n

def eraseAttrsL : List Node → List Node
  | [] => []
  | c :: cs => eraseAttrs c :: eraseAttrsL cs
termination_by structural l => l

end

/-! ## CSS selector model

The CSS query engine is an out-of-scope collaborator.  It is modelled for the
selector forms the source uses: type selectors, class/id selectors, and
attribute presence/exact/substring selectors (optionally qualified by a tag).
Attribute values are matched case-sensitively, class selectors split the
`class` attribute on whitespace, and queries walk the inclusive descendants in
tree order — the semantics of `kuchikiki`'s `select`. -/

def splitWsAux : List Char → List Char → List (List Char)
  | [], acc => if acc = [] then [] else [acc.reverse]
  | c :: t, acc =>
    if isWsChar c then
      (if acc = [] then splitWsAux t [] else acc.reverse :: splitWsAux t [])
    else splitWsAux t (c :: acc)

/-- The whitespace-separated entries of a `class` attribute value. -/
def classList (s : String) : List String := (splitWsAux s.data []).map String.mk

inductive Sel where
  | tagSel (t : String)
  | clsSel (c : String)
  | idSel (i : String)
  | tagAttrSel (t a : String)
  | tagAttrEq (t a v : String)
  | tagAttrSub (t a v : String)
  | attrEq (a v : String)
  | attrSub (a v : String)
deriving DecidableEq

/-- Does a node match a selector?  Only element nodes match. -/
def selMatches (s : Sel) : Node → Bool
  | .element tg attrs _ =>
    match s with
    | .tagSel t => tg = t
    | .clsSel c =>
      match getAttrL attrs "class" with
      | some cls => (classList cls).contains c
      | none => false
    | .idSel i => getAttrL attrs "id" = some i
    | .tagAttrSel t a => tg = t && (getAttrL attrs a).isSome
    | .tagAttrEq t a v => tg = t && getAttrL attrs a = some v
    | .tagAttrSub t a v =>
      tg = t && (match getAttrL attrs a with
                 | some w => strContains w v
                 | none => false)
    | .attrEq a v => getAttrL attrs a = some v
    | .attrSub a v =>
      match getAttrL attrs a with
      | some w => strContains w v
      | none => false
  | _ => false

/-- `NodeRef::select`: matching nodes among the inclusive descendants, in
tree order. -/
def selectAll (s : Sel) (n : Node) : List Node := (descendants n).filter (selMatches s)

/-- `NodeRef::select_first`. -/
def selectFirst (s : Sel) (n : Node) : Option Node := (selectAll s n).head?

/-- Is the character valid inside a (modelled) selector name? -/
def selNameChar (c : Char) : Bool :=
  c.isAlphanum || c = '-' || c = '_' || c = ':' || c = '.'

/-- Modelled selector string grammar (collaborator): `tag`, `.class`, `#id`,
`tag[attr]`, `tag[attr="v"]`, `tag[attr*="v"]` and the tagless attribute
forms.  Anything else — including the empty string and unbalanced brackets —
is a malformed selector, on which the collaborator's parser fails. -/
def parseAttrPart (tag : String) (l : List Char) : Option Sel :=
  match splitOnCharL ']' l with
  | [inner, []] =>
    match splitOnCharL '=' inner with
    | [attr] =>
      if attr ≠ [] && attr.all selNameChar then
        some (if tag = "" then Sel.attrEq ⟨attr⟩ "" else Sel.tagAttrSel tag ⟨attr⟩)
      else none
    | [attr, val] =>
      match val with
      | '"' :: vrest =>
        match vrest.reverse with
        | '"' :: vcore =>
          if attr ≠ [] then
            match attr.reverse with
            | '*' :: acore =>
              if acore ≠ [] && acore.reverse.all selNameChar then
                some (if tag = "" then Sel.attrSub ⟨acore.reverse⟩ ⟨vcore.reverse⟩
                      else Sel.tagAttrSub tag ⟨acore.reverse⟩ ⟨vcore.reverse⟩)
              else none
            | _ =>
              if attr.all selNameChar then
                some (if tag = "" then Sel.attrEq ⟨attr⟩ ⟨vcore.reverse⟩
                      else Sel.tagAttrEq tag ⟨attr⟩ ⟨vcore.reverse⟩)
              else none
          else none
        | _ => none
      | _ => none
    | _ => none
  | _ => none

def parseSelector (s : String) : Option Sel :=
  match s.data with
  | [] => none
  | '.' :: rest =>
    if rest ≠ [] && rest.all selNameChar then some (Sel.clsSel ⟨rest⟩) else none
  | '#' :: rest =>
    if rest ≠ [] && rest.all selNameChar then some (Sel.idSel ⟨rest⟩) else none
  | l =>
    match splitOnCharL '[' l with
    | [tagPart] =>
      if tagPart ≠ [] && tagPart.all selNameChar then some (Sel.tagSel ⟨tagPart⟩) else none
    | [tagPart, attrPart] =>
      if tagPart.all selNameChar then parseAttrPart ⟨tagPart⟩ attrPart else none
    | _ => none

/-! ## The attribution text pattern (`ATTRIBUTION_TEXT_REGEX`)

The source's case-insensitive regex.  It has no anchors, so `is_match` holds
iff some alternative matches at some position.  `\s` is modelled as ASCII
whitespace; literals are stored lowercased and input is lowercased
per-character. -/

inductive RTok where
  | lit (l : List Char)
  | ws1
  | ws0
  | dig4
  | sep

/-- Consume a case-insensitive literal, returning the rest of the input. -/
def dropCILit : List Char → List Char → Option (List Char)
  | [], l => some l
  | _ :: _, [] => none
  | c :: cr, x :: xs => if x.toLower = c then dropCILit cr xs else none

theorem dropCILit_length : ∀ p l r, dropCILit p l = some r → r.length ≤ l.length := by
  intro p
  induction p with
  | nil =>
    intro l r h
    simp [dropCILit] at h
    subst h
    exact Nat.le_refl _
  | cons c cr ih =>
    intro l r h
    cases l with
    | nil => simp [dropCILit] at h
    | cons x xs =>
      simp only [dropCILit] at h
      split at h
      · have := ih xs r h
        simp only [List.length_cons]
        omega
      · simp at h

/-- Match a token sequence against a prefix of the input.  Greedy whitespace
consumption is exact for this pattern set (no alternative has a token that
can begin with whitespace right after a `\s+`/`\s*`), so this computes the
regex fragment's language without backtracking. -/
def matchToks : List RTok → List Char → Bool
  | [], _ => true
  | .lit p :: ps, l =>
    match dropCILit p l with
    | some r => matchToks ps r
    | none => false
  | .ws1 :: ps, l =>
    let r := l.dropWhile isWsChar
    if r.length < l.length then matchToks ps r else false
  | .ws0 :: ps, l => matchToks ps (l.dropWhile isWsChar)
  | .dig4 :: ps, a :: b :: c :: d :: rest =>
    if a.isDigit && b.isDigit && c.isDigit && d.isDigit then matchToks ps rest else false
  | .dig4 :: _, _ => false
  | .sep :: _, [] => false
  | .sep :: ps, x :: xs => if isWsChar x || x = '-' then matchToks ps xs else false

/-- The alternatives of `ATTRIBUTION_TEXT_REGEX` (the `\u{00A9}` and `©`
alternatives are the same character; the optional CC suffix group is expanded
into explicit alternatives). -/
def attributionAlternatives : List (List RTok) :=
  [ [.lit ['©']],
    [.lit "(c)".data, .ws0, .dig4],
    [.lit "copyright".data, .ws1, .lit "(c)".data],
    [.lit "copyright".data, .ws1, .dig4],
    [.lit "all".data, .ws1, .lit "rights".data, .ws1, .lit "reserved".data],
    [.lit "creative".data, .ws1, .lit "commons".data],
    [.lit "creativecommons.org".data],
    [.lit "cc".data, .sep, .lit "by".data],
    [.lit "cc".data, .sep, .lit "by".data, .sep, .lit "sa".data],
    [.lit "cc".data, .sep, .lit "by".data, .sep, .lit "nc".data],
    [.lit "cc".data, .sep, .lit "by".data, .sep, .lit "nd".data],
    [.lit "cc".data, .sep, .lit "by".data, .sep, .lit "nc".data, .sep, .lit "sa".data],
    [.lit "cc".data, .sep, .lit "by".data, .sep, .lit "nc".data, .sep, .lit "nd".data],
    [.lit "cc0".data],
    [.lit "licensed".data, .ws1, .lit "under".data],
    [.lit "photo".data, .ws1, .lit "by".data],
    [.lit "photo".data, .ws1, .lit "credit".data],
    [.lit "image".data, .ws1, .lit "credit".data] ]

/-- `ATTRIBUTION_TEXT_REGEX.is_match`. -/
def attributionTextMatch (s : String) : Bool :=
  s.data.tails.any fun t => attributionAlternatives.any fun alt => matchToks alt t

/-! ## Attribution detector and pruner -/

/-- `ATTRIBUTION_SELECTORS`. -/
def ATTRIBUTION_SELECTORS : List Sel :=
  [ .tagAttrEq "a" "rel" "license",
    .tagAttrSub "a" "href" "creativecommons.org",
    .attrEq "itemprop" "copyrightHolder",
    .attrEq "itemprop" "copyrightYear",
    .attrEq "itemprop" "author",
    .attrEq "itemprop" "creator",
    .attrSub "class" "copyright",
    .attrSub "class" "license" ]

/-- `contains_attribution`: text-regex match on the subtree's text, any
attribution-selector match among the inclusive descendants, or a
case-insensitive `copyright`/`license` substring in the node's own `class`. -/
def containsAttribution (n : Node) : Bool :=
  attributionTextMatch (textContents n) ||
  ATTRIBUTION_SELECTORS.any (fun s => (descendants n).any (selMatches s)) ||
  (match n with
   | .element _ attrs _ =>
     match getAttrL attrs "class" with
     | some cls =>
       strContains (toLowerStr cls) "copyright" || strContains (toLowerStr cls) "license"
     | none => false
   | _ => false)

mutual

/-- `strip_non_attribution_children`: detach every child element that does
not carry attribution; recurse into the ones that do; keep text and comment
children as-is. -/
def stripNonAttributionChildren : Node → Node
  | .element t a cs => .element t a (stripNACL cs)
  | n => n
termination_by structural n => n

def stripNACL : List Node → List Node
  | [] => []
  | .element t a k :: cs =>
    (if containsAttribution (.element t a k)
     then [stripNonAttributionChildren (.element t a k)]
     else []) ++ stripNACL cs
  | other :: cs => other :: stripNACL cs
termination_by structural l => l

end

theorem stripNACL_le_aux :
    ∀ l : List Node, (∀ c ∈ l, sizeOf (stripNonAttributionChildren c) ≤ sizeOf c) →
      sizeOf (stripNACL l) ≤ sizeOf l := by
  intro l
  induction l with
  | nil => intro _; simp [stripNACL]
  | cons c ct ihl =>
    intro h
    have h2 := ihl (fun x hx => h x (by simp [hx]))
    match c with
    | .element t a k =>
      have h1 := h (.element t a k) (by simp)
      simp only [stripNACL]
      split
      · simp_arith at h1 h2 ⊢
        omega
      · simp_arith at h2 ⊢
        omega
    | .text s =>
      simp only [stripNACL]
      simp_arith at h2 ⊢
      omega
    | .comment s =>
      simp only [stripNACL]
      simp_arith at h2 ⊢
      omega

theorem strip_sizeOf_le :
    ∀ n : Node, sizeOf (stripNonAttributionChildren n) ≤ sizeOf n := by
  intro n
  induction n using Node.inductionOn with
  | htext s => simp [stripNonAttributionChildren]
  | hcomment s => simp [stripNonAttributionChildren]
  | helem t a cs ih =>
    have := stripNACL_le_aux cs ih
    simp_arith [stripNonAttributionChildren]
    omega

theorem stripNACL_sizeOf_le : ∀ l : List Node, sizeOf (stripNACL l) ≤ sizeOf l :=
  fun l => stripNACL_le_aux l (fun c _ => strip_sizeOf_le c)

/-! ## Noise-selector removal (`EXCLUDE_NON_MAIN_TAGS` pass) -/

def EXCLUDE_NON_MAIN_TAGS : List Sel :=
  [ .tagSel "header", .tagSel "footer", .tagSel "nav", .tagSel "aside",
    .clsSel "header", .clsSel "top", .clsSel "navbar", .idSel "header",
    .clsSel "footer", .clsSel "bottom", .idSel "footer",
    .clsSel "sidebar", .clsSel "side", .clsSel "aside", .idSel "sidebar",
    .clsSel "modal", .clsSel "popup", .idSel "modal", .clsSel "overlay",
    .clsSel "ad", .clsSel "ads", .clsSel "advert", .idSel "ad",
    .clsSel "lang-selector", .clsSel "language", .idSel "language-selector",
    .clsSel "social", .clsSel "social-media", .clsSel "social-links", .idSel "social",
    .clsSel "menu", .clsSel "navigation", .idSel "nav",
    .clsSel "breadcrumbs", .idSel "breadcrumbs",
    .clsSel "share", .idSel "share", .clsSel "widget", .idSel "widget",
    .clsSel "cookie", .idSel "cookie", .clsSel "fc-decoration" ]

def FORCE_INCLUDE_MAIN_TAGS : List Sel :=
  [ .idSel "main",
    .clsSel "swoogo-cols", .clsSel "swoogo-text", .clsSel "swoogo-table-div",
    .clsSel "swoogo-space", .clsSel "swoogo-alert", .clsSel "swoogo-sponsors",
    .clsSel "swoogo-title", .clsSel "swoogo-tabs", .clsSel "swoogo-logo",
    .clsSel "swoogo-image", .clsSel "swoogo-button", .clsSel "swoogo-agenda" ]

/-- Does a noise match contain a force-include sub-match (`tag.as_node().select`
over any of `FORCE_INCLUDE_MAIN_TAGS`)? -/
def forceIncludeHit (n : Node) : Bool :=
  FORCE_INCLUDE_MAIN_TAGS.any fun s => (descendants n).any (selMatches s)

/-- The fate of one noise-deny-list match in the `only_main_content` loop:
skip it when a force-include selector matches inside, keep it pruned when it
carries attribution, otherwise detach it (`none`). -/
def processNoiseMatch (n : Node) : Option Node :=
  if forceIncludeHit n then some n
  else if containsAttribution n then some (stripNonAttributionChildren n)
  else none

mutual

/-- One noise selector's pass over a subtree.  A matching element is skipped
(force-include), pruned (attribution) or detached; nested matches of the same
selector that remain attached afterwards are still processed, with their
checks evaluated on the then-current subtree — the value-level rendering of
the source's collect-then-mutate loop. -/
def noiseVisit (s : Sel) : Node → Option Node
  | .element t a cs =>
    if selMatches s (.element t a cs) then
      if forceIncludeHit (.element t a cs) then
        some (.element t a (noiseVisitL s cs))
      else if containsAttribution (.element t a cs) then
        some (.element t a (noiseVisitL s (stripNACL cs)))
      else none
    else some (.element t a (noiseVisitL s cs))
  | n => some n
termination_by n => sizeOf n
decreasing_by
  all_goals simp_wf
  all_goals
    first
      | (simp_arith
         done)
      | (simp_arith
         exact Nat.le_trans (stripNACL_sizeOf_le _) (by omega))

def noiseVisitL (s : Sel) : List Node → List Node
  | [] => []
  | c :: cs =>
    (match noiseVisit s c with
     | some c2 => [c2]
     | none => []) ++ noiseVisitL s cs
termination_by l => sizeOf l
decreasing_by all_goals (simp_wf <;> simp_arith)

end

def noiseStageSel (s : Sel) : Node → Node
  | .element t a cs => .element t a (noiseVisitL s cs)
  | n => n

/-- Stage 5 of `_transform_html_inner` (`only_main_content` noise removal):
fold the deny-list selectors in order. -/
def noiseStage (d : Node) : Node :=
  EXCLUDE_NON_MAIN_TAGS.foldl (fun d s => noiseStageSel s d) d

/-! ## Generic pruning / mapping over the tree -/

mutual

/-- Remove every subtree whose root satisfies `p` (the document root is kept);
the value-level rendering of the repeated `select_first`/`detach` loops and of
the deferred-detach OMCE traversal. -/
def pruneBy (p : Node → Bool) : Node → Node
  | .element t a cs => .element t a (pruneByL p cs)
  | n => n
termination_by structural n => n

def pruneByL (p : Node → Bool) : List Node → List Node
  | [] => []
  | c :: cs => (if p c then [] else [pruneBy p c]) ++ pruneByL p cs
termination_by structural l => l

end

mutual

/-- Apply `f` to every node satisfying `p` (in tree order).  In the source
`f` only rewrites attributes, so recursing into the original children is the
collect-then-mutate loop's behaviour. -/
def mapNodes (p : Node → Bool) (f : Node → Node) : Node → Node
  | .element t a cs =>
    match (if p (.element t a cs) then f (.element t a cs) else .element t a cs) with
    | .element t2 a2 _ => .element t2 a2 (mapNodesL p f cs)
    | x => x
  | n => if p n then f n else n
termination_by structural n => n

def mapNodesL (p : Node → Bool) (f : Node → Node) : List Node → List Node
  | [] => []
  | c :: cs => mapNodes p f c :: mapNodesL p f cs
termination_by structural l => l

end

/-! ## URL model

The URL parser/joiner is an out-of-scope collaborator (`url` crate, WHATWG).
Modelled fragment: `scheme://host/path?query#fragment` URLs.  As in the
collaborator, serialization is normalizing — an empty path serializes as `/`,
so `toString ∘ parse` is not the identity on the input string. -/

structure MUrl where
  scheme : String
  host : String
  path : List String
  query : Option String
  fragment : Option String
deriving DecidableEq

/-- Split `path?query#fragment` text into its three components. -/
def splitPQF (l : List Char) : List String × Option String × Option String :=
  let noFrag := l.takeWhile (· ≠ '#')
  let frag := if noFrag.length < l.length then some (⟨l.drop (noFrag.length + 1)⟩ : String) else none
  let pathPart := noFrag.takeWhile (· ≠ '?')
  let query :=
    if pathPart.length < noFrag.length then some (⟨noFrag.drop (pathPart.length + 1)⟩ : String)
    else none
  let segs :=
    match pathPart with
    | '/' :: rest => (splitOnCharL '/' rest).map (fun x => (⟨x⟩ : String))
    | [] => []
    | other => (splitOnCharL '/' other).map (fun x => (⟨x⟩ : String))
  (segs, query, frag)

def MUrl.parse (s : String) : Option MUrl :=
  let l := s.data
  let sch := l.takeWhile (· ≠ ':')
  if sch ≠ [] && sch.all Char.isAlpha then
    match l.drop sch.length with
    | ':' :: '/' :: '/' :: rest =>
      let host := rest.takeWhile (fun c => c ≠ '/' && c ≠ '?' && c ≠ '#')
      if host ≠ [] && host.all (fun c => !isWsChar c) then
        let (segs, query, frag) := splitPQF (rest.drop host.length)
        some ⟨⟨sch⟩, ⟨host⟩, segs, query, frag⟩
      else none
    | _ => none
  else none

def MUrl.toString (u : MUrl) : String :=
  u.scheme ++ "://" ++ u.host ++ "/" ++ joinWith "/" u.path ++
    (match u.query with
     | some q => "?" ++ q
     | none => "") ++
    (match u.fragment with
     | some f => "#" ++ f
     | none => "")

/-- RFC-3986-style join of a relative reference against a base (modelled
fragment; dot-segment normalization and non-special schemes are outside the
model, an unparseable absolute reference makes the join fail). -/
def MUrl.join (base : MUrl) (rel : String) : Option MUrl :=
  match rel.data with
  | [] => some { base with fragment := none }
  | '#' :: f => some { base with fragment := some ⟨f⟩ }
  | '?' :: r =>
    let noFrag := r.takeWhile (· ≠ '#')
    let frag := if noFrag.length < r.length then some ((⟨r.drop (noFrag.length + 1)⟩ : String)) else none
    some { base with query := some ⟨noFrag⟩, fragment := frag }
  | '/' :: '/' :: r => MUrl.parse (base.scheme ++ "://" ++ ⟨r⟩)
  | '/' :: r =>
    let (segs, query, frag) := splitPQF ('/' :: r)
    some { base with path := segs, query := query, fragment := frag }
  | l =>
    let sch := l.takeWhile (· ≠ ':')
    if sch ≠ [] && sch.all Char.isAlpha && sch.length < l.length then
      MUrl.parse rel
    else
      let (segs, query, frag) := splitPQF l
      some { base with path := base.path.dropLast ++ segs, query := query, fragment := frag }

/-! ## Base href resolution (`_extract_base_href`) -/

/-- `_extract_base_href_from_document`: resolve the first `base[href]` against
the page URL; on a missing element or a failed join, fall back to the page
URL's serialization. -/
def extractBaseHrefFromDocument (doc : Node) (url : MUrl) : String :=
  match (selectFirst (.tagAttrSel "base" "href") doc).bind (fun b => b.attr "href") with
  | some b =>
    match url.join b with
    | some joined => joined.toString
    | none => url.toString
  | none => url.toString

/-- `_extract_base_href` (the parse of the HTML itself is the collaborator;
`none` models the `UrlParseError` failure). -/
def extractBaseHref (doc : Node) (url : String) : Option String :=
  (MUrl.parse url).map (extractBaseHrefFromDocument doc)

/-! ## Srcset resolution (stage 6 of `_transform_html_inner`) -/

structure ImageSource where
  url : String
  size : ℚ
  is_x : Bool
deriving DecidableEq

def digitsNat : List Char → Nat :=
  List.foldl (fun a c => a * 10 + (c.toNat - 48)) 0

/-- Signed integer from a digit value. -/
def intSign (neg : Bool) (n : Nat) : Int := if neg then -(n : Int) else (n : Int)

/-- `str::parse::<f64>` modelled over plain decimal literals as exact
rationals (exponents, `inf`/`nan` and float rounding are outside the model);
the value of `±i.f` is `±(digits i f) / 10^(digit count of f)`. -/
def parseDecimalQ (s : String) : Option ℚ :=
  let (neg, l) : Bool × List Char :=
    match s.data with
    | '-' :: r => (true, r)
    | '+' :: r => (false, r)
    | r => (false, r)
  let intPart := l.takeWhile Char.isDigit
  match l.drop intPart.length with
  | [] =>
    if intPart = [] then none
    else some (Rat.divInt (intSign neg (digitsNat intPart)) 1)
  | '.' :: fr =>
    if fr.all Char.isDigit && (intPart ≠ [] || fr ≠ []) then
      some (Rat.divInt (intSign neg (digitsNat (intPart ++ fr)))
        (Int.ofNat (10 ^ fr.length)))
    else none
  | _ => none

/-- Parse one comma-separated srcset candidate, exactly as the `filter_map`
closure: whitespace-split into tokens, treat the last token as a descriptor
only if there is more than one token, it is non-empty and it ends in `x` or
`w`; otherwise assign an implicit `1x` and trim nothing; drop the candidate
silently if the descriptor's numeric prefix fails to parse. -/
def parseSrcsetCandidate (cand : String) : Option ImageSource :=
  let tok := splitOnChar ' ' (trimStr cand)
  match tok.getLast? with
  | none => none
  | some lastTok =>
    let used := decide (tok.length > 1) && lastTok ≠ "" &&
      (strEndsWith lastTok "x" || strEndsWith lastTok "w")
    let desc := if used then lastTok else "1x"
    match desc.data with
    | [] => none
    | dl =>
      match parseDecimalQ ⟨dl.dropLast⟩ with
      | some q =>
        some { url := if used then joinWith " " tok.dropLast else joinWith " " tok,
               size := q,
               is_x := strEndsWith desc "x" }
      | none => none

def parseSrcset (ss : String) : List ImageSource :=
  (splitOnChar ',' ss).filterMap parseSrcsetCandidate

/-- Stable descending insertion by `size`: the extensional behaviour of the
source's stable `sort_by(|a, b| b.size.partial_cmp(&a.size))` on totally
ordered sizes. -/
def insertDescIS (a : ImageSource) : List ImageSource → List ImageSource
  | [] => [a]
  | b :: t => if a.size < b.size then b :: insertDescIS a t else a :: b :: t

def sortDescIS : List ImageSource → List ImageSource
  | [] => []
  | a :: t => insertDescIS a (sortDescIS t)

/-- The implicit-`1x` synthesis: when every parsed candidate is a density
descriptor, append the plain `src` (if any) as a `1x` candidate. -/
def srcsetWithSrcFallback (sizes : List ImageSource) (src : Option String) :
    List ImageSource :=
  if sizes.all (·.is_x) then
    match src with
    | some u => sizes ++ [⟨u, 1, true⟩]
    | none => sizes
  else sizes

/-- The per-`img[srcset]` body of stage 6: parse, synthesize the `1x`
fallback, sort descending, write the first candidate's URL into `src`. -/
def resolveSrcsetImg (n : Node) : Node :=
  match n.attr "srcset" with
  | none => n
  | some ss =>
    let sizes := srcsetWithSrcFallback (parseSrcset ss) (n.attr "src")
    match (sortDescIS sizes).head? with
    | some biggest => n.setAttr "src" biggest.url
    | none => n

/-! ## The transform pipeline (`_transform_html_inner`) -/

/-- Transform outcomes: a domain error (`Err`) is distinct from a panic
(`unwrap` on `None`), which aborts the worker thread. -/
inductive TResult where
  | ok (n : Node)
  | err (msg : String)
  | panic
deriving DecidableEq

structure TransformHtmlOptions where
  doc : Node
  url : String
  include_tags : List String := []
  exclude_tags : List String := []
  only_main_content : Bool := false
  omce_signatures : Option (List String) := none

/-- Mode extraction over `omce_signatures`:
`x.split(':').nth(1).unwrap()` per signature; `none` models the panic when a
signature has fewer than two `:`-separated segments.  (`SignatureMode` round
trips through the collaborator's string conversion, modelled as the string
itself.) -/
def extractOmceModes : List String → Option (List String)
  | [] => some []
  | s :: rest =>
    match (splitOnChar ':' s).get? 1 with
    | some m => (extractOmceModes rest).map (m :: ·)
    | none => none

/-- The signature subset relevant to one mode (`x.contains(":{mode}:")`). -/
def sigsForMode (sigs : List String) (mode : String) : List String :=
  sigs.filter fun x => strContains x (":" ++ mode ++ ":")

/-- Is this node marked by the OMCE traversal: an element with non-empty
trimmed text whose fingerprint under some mode is in that mode's signature
set?  (`sigFn` is the collaborator `get_node_signature`.) -/
def omceDropB (sigFn : Node → String → String) (modes sigs : List String)
    (n : Node) : Bool :=
  n.isElem && trimStr (textContents n) ≠ "" &&
    modes.any fun m => (sigsForMode sigs m).contains (sigFn n m)

/-- Tags removed by the structural strip (stage 2). -/
def STRUCT_TAGS : List String := ["head", "meta", "noscript", "style", "script"]

def isStructTag (n : Node) : Bool :=
  match n.tag with
  | some t => STRUCT_TAGS.contains t
  | none => false

/-- Stage 1 (include filter): per selector, move every match (in tree order)
into a fresh container.  Appending a node detaches it, so a nested match is
pulled out of its already-moved ancestor: each match ends up a child of the
container with its own nested matches removed, and later selectors query the
remaining document. -/
def includeStage (sels : List Sel) (doc : Node) : Node :=
  let step : Node × List Node → Sel → Node × List Node := fun (d, acc) s =>
    (pruneBy (selMatches s) d,
     acc ++ (selectAll s d).map (pruneBy (selMatches s)))
  let moved := (sels.foldl step (doc, [])).2
  .element "#document" []
    [.element "html" []
      [.element "head" [] [],
       .element "body" [] [.element "div" [] moved]]]

def transformHtml (sigFn : Node → String → String)
    (opts : TransformHtmlOptions) : TResult :=
  match MUrl.parse opts.url with
  | none => .err "invalid url"
  | some pageUrl =>
    match MUrl.parse (extractBaseHrefFromDocument opts.doc pageUrl) with
    | none => .err "invalid base url"
    | some url =>
      let incRes : Except String Node :=
        if opts.include_tags ≠ [] then
          match opts.include_tags.mapM parseSelector with
          | none => .error "Failed to include_tags tags"
          | some sels => .ok (includeStage sels opts.doc)
        else .ok opts.doc
      match incRes with
      | .error e => .err e
      | .ok d0 =>
        let d1 := pruneBy isStructTag d0
        let omceRes : Option Node :=
          if opts.only_main_content then
            match opts.omce_signatures with
            | some sigs =>
              match extractOmceModes sigs with
              | none => none
              | some modes => some (pruneBy (omceDropB sigFn modes sigs) d1)
            | none => some d1
          else some d1
        match omceRes with
        | none => .panic
        | some d2 =>
          let d3 := opts.exclude_tags.foldl (fun d x =>
            match parseSelector x with
            | some sel => pruneBy (selMatches sel) d
            | none => d) d2
          let d4 := if opts.only_main_content then noiseStage d3 else d3
          let d5 := mapNodes (fun n => n.tag = some "img" && (n.attr "srcset").isSome)
            resolveSrcsetImg d4
          let d6 := mapNodes (fun n => n.tag = some "img" && (n.attr "src").isSome)
            (fun n =>
              match n.attr "src" with
              | some old =>
                match url.join old with
                | some newU => n.setAttr "src" newU.toString
                | none => n
              | none => n) d5
          let d7 := mapNodes (fun n => n.tag = some "a" && (n.attr "href").isSome)
            (fun n =>
              match n.attr "href" with
              | some old =>
                match url.join old with
                | some newU => n.setAttr "href" newU.toString
                | none => n
              | none => n) d6
          .ok d7

/-! ## Metadata extraction (`_extract_metadata`) -/

/-- `serde_json::Value` as used by the extractor: every inserted value is a
string or an array of strings. -/
inductive JVal where
  | str (s : String)
  | arr (l : List String)
deriving DecidableEq, Repr

/-- The output `HashMap<String, Value>`, as an association list with
replace-on-insert semantics. -/
def MMap := List (String × JVal)

def mmGet : MMap → String → Option JVal
  | [], _ => none
  | (k, v) :: t, key => if k = key then some v else mmGet t key

def mmInsert : MMap → String → JVal → MMap
  | [], key, value => [(key, value)]
  | (k, v) :: t, key, value =>
    if k = key then (k, value) :: t else (k, v) :: mmInsert t key value

/-- One `insert_meta_property!` expansion: first
`meta[property="name"]`'s `content` under the search root. -/
def insertMetaProperty (out : MMap) (root : Node) (metaName outName : String) : MMap :=
  match (selectFirst (.tagAttrEq "meta" "property" metaName) root).bind
      (fun m => m.attr "content") with
  | some x => mmInsert out outName (.str x)
  | none => out

/-- One `insert_meta_name!` expansion. -/
def insertMetaName (out : MMap) (root : Node) (metaName outName : String) : MMap :=
  match (selectFirst (.tagAttrEq "meta" "name" metaName) root).bind
      (fun m => m.attr "content") with
  | some x => mmInsert out outName (.str x)
  | none => out

/-- The `og:locale:alternate` loop: every occurrence's `content` appends to
an array under `ogLocaleAlternate` (a non-array existing value is the
source's `unreachable!`). -/
def ogLocaleAlternatePass (out : MMap) (metas : List Node) : MMap :=
  metas.foldl
    (fun out m =>
      match m.attr "content" with
      | some c =>
        match mmGet out "ogLocaleAlternate" with
        | some (.arr l) => mmInsert out "ogLocaleAlternate" (.arr (l ++ [c]))
        | some (.str _) => out
        | none => mmInsert out "ogLocaleAlternate" (.arr [c])
      | none => out)
    out

/-- Key derivation of the generic pass: `name`, else `property`, else
`itemprop`. -/
def metaKeyOf (n : Node) : Option String :=
  (n.attr "name").or ((n.attr "property").or (n.attr "itemprop"))

/-- The merge step of the generic pass, exactly the source's match:
`description` concatenates with `", "`; a second value under any other
non-`title` key arrays; an existing array appends (collapsing back to a
joined string for `description`); `title` is left untouched. -/
def mergeMetaContent (out : MMap) (name content : String) : MMap :=
  match mmGet out name with
  | some (.str existing) =>
    if name = "description" then
      mmInsert out name (.str (existing ++ ", " ++ content))
    else if name ≠ "title" then
      mmInsert out name (.arr [existing, content])
    else out
  | some (.arr existingArr) =>
    if name = "description" then
      mmInsert out name (.str (joinWith ", " (existingArr ++ [content])))
    else
      mmInsert out name (.arr (existingArr ++ [content]))
  | none => mmInsert out name (.str content)

/-- The generic pass over every `meta` element of the whole document. -/
def genericMetaPass (out : MMap) (metas : List Node) : MMap :=
  metas.foldl
    (fun out m =>
      match metaKeyOf m with
      | some name =>
        match m.attr "content" with
        | some content => mergeMetaContent out name content
        | none => out
      | none => out)
    out

/-- The title backfill: if no `title` was set, consult
`ogTitle`, else `og:title`, else `twitter:title` (the chain advances only
past *absent* keys), and backfill only when the found value is a non-empty
string. -/
def backfillTitle (out : MMap) : MMap :=
  if (mmGet out "title").isSome then out
  else
    match (mmGet out "ogTitle").or ((mmGet out "og:title").or (mmGet out "twitter:title")) with
    | some (.str s) => if s ≠ "" then mmInsert out "title" (.str s) else out
    | _ => out

/-- `_extract_metadata` over a parsed document. -/
def extractMetadata (doc : Node) : MMap :=
  let searchRoot := (selectFirst (.tagSel "head") doc).getD doc
  let out : MMap := []
  let out :=
    match selectFirst (.tagSel "title") searchRoot with
    | some t => mmInsert out "title" (.str (textContents t))
    | none => out
  let out :=
    match ((selectFirst (.tagAttrEq "link" "rel" "icon") searchRoot).bind
        (fun x => x.attr "href")).or
      ((selectFirst (.tagAttrSub "link" "rel" "icon") searchRoot).bind
        (fun x => x.attr "href")) with
    | some favicon => mmInsert out "favicon" (.str favicon)
    | none => out
  let out :=
    match (selectFirst (.tagAttrSel "html" "lang") doc).bind (fun x => x.attr "lang") with
    | some lang => mmInsert out "language" (.str lang)
    | none => out
  let out := insertMetaProperty out searchRoot "og:title" "ogTitle"
  let out := insertMetaProperty out searchRoot "og:description" "ogDescription"
  let out := insertMetaProperty out searchRoot "og:url" "ogUrl"
  let out := insertMetaProperty out searchRoot "og:image" "ogImage"
  let out := insertMetaProperty out searchRoot "og:audio" "ogAudio"
  let out := insertMetaProperty out searchRoot "og:determiner" "ogDeterminer"
  let out := insertMetaProperty out searchRoot "og:locale" "ogLocale"
  let out := ogLocaleAlternatePass out
    (selectAll (.tagAttrEq "meta" "property" "og:locale:alternate") searchRoot)
  let out := insertMetaProperty out doc "og:site_name" "ogSiteName"
  let out := insertMetaProperty out doc "og:video" "ogVideo"
  let out := insertMetaName out doc "article:section" "articleSection"
  let out := insertMetaName out doc "article:tag" "articleTag"
  let out := insertMetaProperty out doc "article:published_time" "publishedTime"
  let out := insertMetaProperty out doc "article:modified_time" "modifiedTime"
  let out := insertMetaName out doc "dcterms.keywords" "dcTermsKeywords"
  let out := insertMetaName out doc "dc.description" "dcDescription"
  let out := insertMetaName out doc "dc.subject" "dcSubject"
  let out := insertMetaName out doc "dcterms.subject" "dcTermsSubject"
  let out := insertMetaName out doc "dcterms.audience" "dcTermsAudience"
  let out := insertMetaName out doc "dc.type" "dcType"
  let out := insertMetaName out doc "dcterms.type" "dcTermsType"
  let out := insertMetaName out doc "dc.date" "dcDate"
  let out := insertMetaName out doc "dc.date.created" "dcDateCreated"
  let out := insertMetaName out doc "dcterms.created" "dcTermsCreated"
  let out := genericMetaPass out (selectAll (.tagSel "meta") doc)
  backfillTitle out

/-- `extract_metadata` (the `Option<String>` input: `None` gives the empty
map). -/
def extractMetadataOpt : Option Node → MMap
  | none => []
  | some doc => extractMetadata doc

/-! ## Link harvesting (`extract_links`) -/

/-- The single repair of `extract_links`: insert the missing slash after
`http:/` or `https:/`. -/
def repairHref (href : String) : String :=
  if strStartsWith href "http:/" && !strStartsWith href "http://" then
    "http://" ++ strDrop href 6
  else if strStartsWith href "https:/" && !strStartsWith href "https://" then
    "https://" ++ strDrop href 7
  else href

/-- `extract_links`: every `a[href]` value in document order, repaired;
`None` input gives the empty list. -/
def extractLinks : Option Node → List String
  | none => []
  | some doc =>
    (selectAll (.tagAttrSel "a" "href") doc).filterMap fun a =>
      (a.attr "href").map repairHref

/-! ## Attribute extraction (`_extract_attributes`) -/

structure AttributeSelector where
  selector : String
  attrName : String
deriving DecidableEq

structure ExtractedAttributeResult where
  selector : String
  attrName : String
  values : List String
deriving DecidableEq

/-- `_extract_attributes`: one result per input entry, in order; a malformed
selector collapses to an empty match list; a missing attribute falls back to
the `data-`-prefixed variant unless the requested name (`attrName`, the
source's second field) already starts with `data-`. -/
def extractAttributes (doc : Node) (selectors : List AttributeSelector) :
    List ExtractedAttributeResult :=
  selectors.map fun sc =>
    let elements :=
      match parseSelector sc.selector with
      | some sel => selectAll sel doc
      | none => []
    let values := elements.filterMap fun e =>
      match e.attr sc.attrName with
      | some v => some v
      | none =>
        if !strStartsWith sc.attrName "data-" then e.attr ("data-" ++ sc.attrName)
        else none
    ⟨sc.selector, sc.attrName, values⟩

/-! ## Markdown post-processing (`post_process_markdown`) -/

/-- The bracket-depth counter update: `+1` on `[`, saturating `-1` on `]`
(`link_open_count` in the source). -/
def bracketDepthStep (depth : Nat) (c : Char) : Nat :=
  if c = '[' then depth + 1 else if c = ']' then depth - 1 else depth

/-- Pass 1: scan with the bracket-depth counter; a newline seen while the
counter is positive is emitted as a backslash followed by the newline. -/
def escapeLinkNewlines : List Char → Nat → List Char
  | [], _ => []
  | c :: t, depth =>
    let d := bracketDepthStep depth c
    if d > 0 && c = '\n' then '\\' :: '\n' :: escapeLinkNewlines t d
    else c :: escapeLinkNewlines t d

/-- Case-insensitive (ASCII) literal match, returning the rest of the input.
-/
def matchLabelCI : List Char → List Char → Option (List Char)
  | [], l => some l
  | _ :: _, [] => none
  | p :: ps, x :: xs => if x.toLower = p.toLower then matchLabelCI ps xs else none

theorem matchLabelCI_length :
    ∀ p l r, matchLabelCI p l = some r → r.length ≤ l.length := by
  intro p
  induction p with
  | nil =>
    intro l r h
    simp [matchLabelCI] at h
    subst h
    exact Nat.le_refl _
  | cons c cr ih =>
    intro l r h
    cases l with
    | nil => simp [matchLabelCI] at h
    | cons x xs =>
      simp only [matchLabelCI] at h
      split at h
      · have := ih xs r h
        simp only [List.length_cons]
        omega
      · simp at h

/-- Scan to the first `)`, returning the rest of the input after it. -/
def findCloseParen : List Char → Option (List Char)
  | [] => none
  | c :: t => if c = ')' then some t else findCloseParen t

theorem findCloseParen_length :
    ∀ l r, findCloseParen l = some r → r.length < l.length := by
  intro l
  induction l with
  | nil => intro r h; simp [findCloseParen] at h
  | cons c t ih =>
    intro r h
    simp only [findCloseParen] at h
    split at h
    · simp at h
      subst h
      simp
    · have := ih r h
      simp only [List.length_cons]
      omega

/-- After a `[`, recognize the rest of a skip link: the label
`Skip to Content` (ASCII case-insensitive), then `](#`, then everything up to
the first `)`.  Returns the input remaining after that `)`, or `none` when
the shape is absent (including a missing closing paren). -/
def skipLinkRest (t : List Char) : Option (List Char) :=
  match matchLabelCI "Skip to Content".data t with
  | some (']' :: '(' :: '#' :: r) => findCloseParen r
  | _ => none

theorem skipLinkRest_length :
    ∀ t r, skipLinkRest t = some r → r.length < t.length := by
  intro t r h
  simp only [skipLinkRest] at h
  split at h
  · rename_i rest hm
    have ha := matchLabelCI_length _ _ _ hm
    have hb := findCloseParen_length _ _ h
    simp at ha
    omega
  · simp at h

/-- Pass 2 (`remove_skip_to_content_links`): drop every literal
`[Skip to Content](#…)` span — label equal, ASCII case-insensitive; `](`
and `#` immediately after; span ends at the first `)`.  Everything else is
copied through. -/
def removeSkipLinks : List Char → List Char
  | [] => []
  | c :: t =>
    if c = '[' then
      match h1 : skipLinkRest t with
      | some after => removeSkipLinks after
      | none => c :: removeSkipLinks t
    else c :: removeSkipLinks t
termination_by l => l.length
decreasing_by
  all_goals simp_wf
  · have ha := skipLinkRest_length _ _ h1
    omega

/-- `post_process_markdown`: both passes in order. -/
def postProcessMarkdownL (l : List Char) : List Char :=
  removeSkipLinks (escapeLinkNewlines l 0)

def postProcessMarkdown (s : String) : String := ⟨postProcessMarkdownL s.data⟩

/-! ## Relations and helper lemmas for the claims -/

/-- `SubtreeMem d n`: `d` is the subtree at some (inclusive) position of
`n`. -/
inductive SubtreeMem : Node → Node → Prop where
  | refl (n : Node) : SubtreeMem n n
  | child {d c n : Node} : c ∈ n.children → SubtreeMem d c → SubtreeMem d n

theorem SubtreeMem.trans {a b c : Node} :
    SubtreeMem a b → SubtreeMem b c → SubtreeMem a c := by
  intro hab hbc
  induction hbc with
  | refl => exact hab
  | child hm _ ih => exact SubtreeMem.child hm ih

/-- `AttrChain n d`: `d` is reachable from `n` by stepping only into element
children that carry attribution (each step's check made on the stepped-into
subtree). -/
inductive AttrChain : Node → Node → Prop where
  | refl (n : Node) : AttrChain n n
  | step {n : Node} {t : String} {a : List (String × String)} {cs : List Node}
      {c : Node} :
      AttrChain n (.element t a cs) → c ∈ cs → c.isElem = true →
      containsAttribution c = true → AttrChain n c

theorem AttrChain.compose {a b c : Node} :
    AttrChain a b → AttrChain b c → AttrChain a c := by
  intro hab hbc
  induction hbc with
  | refl => exact hab
  | step _ hm he hc ih => exact AttrChain.step ih hm he hc

/-- `TResult` projection used to state concrete pipeline facts. -/
def TResult.okNode : TResult → Option Node
  | .ok n => some n
  | _ => none

/-- A concrete collaborator instance for `get_node_signature`, used by the
closed examples (the panic happens before any signature is computed). -/
def sigFnStub : Node → String → String := fun _ _ => ""

theorem mmGet_mmInsert_same (m : MMap) (k : String) (v : JVal) :
    mmGet (mmInsert m k v) k = some v := by
  induction m with
  | nil => simp [mmInsert, mmGet]
  | cons h t ih =>
    obtain ⟨k2, v2⟩ := h
    by_cases hk : k2 = k <;> simp [mmInsert, mmGet, hk, ih]

theorem mmGet_mmInsert_ne (m : MMap) (k k2 : String) (v : JVal) (h : k2 ≠ k) :
    mmGet (mmInsert m k v) k2 = mmGet m k2 := by
  have h2 : k ≠ k2 := fun hh => h hh.symm
  induction m with
  | nil => simp [mmInsert, mmGet, h2]
  | cons hd t ih =>
    obtain ⟨k3, v3⟩ := hd
    by_cases hk : k3 = k
    · subst hk
      simp [mmInsert, mmGet, h2]
    · simp [mmInsert, mmGet, hk, ih]

theorem mem_insertDescIS {y a : ImageSource} :
    ∀ {s : List ImageSource}, y ∈ insertDescIS a s ↔ y = a ∨ y ∈ s := by
  intro s
  induction s with
  | nil => simp [insertDescIS]
  | cons b t ih =>
    simp only [insertDescIS]
    split <;> simp [ih] <;> tauto

theorem mem_sortDescIS {y : ImageSource} :
    ∀ {l : List ImageSource}, y ∈ sortDescIS l ↔ y ∈ l := by
  intro l
  induction l with
  | nil => simp [sortDescIS]
  | cons a t ih => simp [sortDescIS, mem_insertDescIS, ih]

theorem sortDescIS_head_max :
    ∀ (l : List ImageSource) (x : ImageSource),
      (sortDescIS l).head? = some x → x ∈ l ∧ ∀ y ∈ l, y.size ≤ x.size := by
  intro l
  induction l with
  | nil => intro x h; simp [sortDescIS] at h
  | cons a t ih =>
    intro x h
    simp only [sortDescIS] at h
    match hs : sortDescIS t with
    | [] =>
      rw [hs] at h
      simp [insertDescIS] at h
      subst h
      constructor
      · simp
      · intro y hy
        simp at hy
        rcases hy with hy | hy
        · simp [hy]
        · exfalso
          have : y ∈ sortDescIS t := mem_sortDescIS.mpr hy
          rw [hs] at this
          simp at this
    | b :: s2 =>
      rw [hs] at h
      have hb := ih b (by rw [hs]; rfl)
      simp only [insertDescIS] at h
      split at h
      · rename_i hab
        simp at h
        subst h
        refine ⟨List.mem_cons_of_mem _ hb.1, ?_⟩
        intro y hy
        rcases List.mem_cons.mp hy with hy | hy
        · subst hy
          exact le_of_lt hab
        · exact hb.2 y hy
      · rename_i hab
        push_neg at hab
        simp at h
        subst h
        refine ⟨List.mem_cons_self _ _, ?_⟩
        intro y hy
        rcases List.mem_cons.mp hy with hy | hy
        · subst hy
          exact le_refl _
        · exact le_trans (hb.2 y hy) hab

theorem getAttrL_setAttrL_ne (attrs : List (String × String)) (k k2 v : String)
    (h : k2 ≠ k) : getAttrL (setAttrL attrs k v) k2 = getAttrL attrs k2 := by
  have h2 : k ≠ k2 := fun hh => h hh.symm
  induction attrs with
  | nil => simp [setAttrL, getAttrL, h2]
  | cons hd t ih =>
    obtain ⟨k3, v3⟩ := hd
    by_cases hk : k3 = k
    · subst hk
      simp [setAttrL, getAttrL, h2]
    · simp [setAttrL, getAttrL, hk, ih]

theorem getAttrL_setAttrL_same (attrs : List (String × String)) (k v : String) :
    getAttrL (setAttrL attrs k v) k = some v := by
  induction attrs with
  | nil => simp [setAttrL, getAttrL]
  | cons hd t ih =>
    obtain ⟨k3, v3⟩ := hd
    by_cases hk : k3 = k <;> simp [setAttrL, getAttrL, hk, ih]

/-! ## C1: the attribution-preserving pruner -/

theorem strip_elem (t : String) (a : List (String × String)) (cs : List Node) :
    stripNonAttributionChildren (.element t a cs) = .element t a (stripNACL cs) := by
  simp [stripNonAttributionChildren]

theorem strip_isElem (c : Node) (h : c.isElem = true) :
    (stripNonAttributionChildren c).isElem = true := by
  match c with
  | .element t a k => rw [strip_elem]; rfl
  | .text s => simp [Node.isElem] at h
  | .comment s => simp [Node.isElem] at h

theorem mem_stripNACL :
    ∀ (cs : List Node) (c : Node), c ∈ cs → c.isElem = true →
      containsAttribution c = true → stripNonAttributionChildren c ∈ stripNACL cs := by
  intro cs
  induction cs with
  | nil => intro c h _ _; simp at h
  | cons hd tl ih =>
    intro c hmem helem hattr
    rcases List.mem_cons.mp hmem with h | h
    · subst h
      match c, helem with
      | .element t a k, _ =>
        simp only [stripNACL]
        rw [if_pos hattr]
        simp
    · match hd with
      | .element t2 a2 k2 =>
        simp only [stripNACL]
        exact List.mem_append_right _ (ih c h helem hattr)
      | .text s => exact List.mem_cons_of_mem _ (ih c h helem hattr)
      | .comment s => exact List.mem_cons_of_mem _ (ih c h helem hattr)

theorem stripNACL_mem_inv :
    ∀ (cs : List Node) (x : Node), x ∈ stripNACL cs →
      (∃ c ∈ cs, c.isElem = true ∧ containsAttribution c = true ∧
        x = stripNonAttributionChildren c) ∨ (x ∈ cs ∧ x.isElem = false) := by
  intro cs
  induction cs with
  | nil => intro x h; simp [stripNACL] at h
  | cons hd tl ih =>
    intro x hx
    match hd with
    | .element t a k =>
      simp only [stripNACL] at hx
      by_cases hattr : containsAttribution (.element t a k) = true
      · rw [if_pos hattr] at hx
        rcases List.mem_append.mp hx with h | h
        · simp at h
          subst h
          exact Or.inl ⟨.element t a k, by simp, rfl, hattr, rfl⟩
        · rcases ih x h with ⟨c, hc1, hc2, hc3, hc4⟩ | ⟨h1, h2⟩
          · exact Or.inl ⟨c, List.mem_cons_of_mem _ hc1, hc2, hc3, hc4⟩
          · exact Or.inr ⟨List.mem_cons_of_mem _ h1, h2⟩
      · rw [if_neg hattr] at hx
        simp only [List.nil_append] at hx
        rcases ih x hx with ⟨c, hc1, hc2, hc3, hc4⟩ | ⟨h1, h2⟩
        · exact Or.inl ⟨c, List.mem_cons_of_mem _ hc1, hc2, hc3, hc4⟩
        · exact Or.inr ⟨List.mem_cons_of_mem _ h1, h2⟩
    | .text s =>
      simp only [stripNACL] at hx
      rcases List.mem_cons.mp hx with h | h
      · subst h
        exact Or.inr ⟨by simp, rfl⟩
      · rcases ih x h with ⟨c, hc1, hc2, hc3, hc4⟩ | ⟨h1, h2⟩
        · exact Or.inl ⟨c, List.mem_cons_of_mem _ hc1, hc2, hc3, hc4⟩
        · exact Or.inr ⟨List.mem_cons_of_mem _ h1, h2⟩
    | .comment s =>
      simp only [stripNACL] at hx
      rcases List.mem_cons.mp hx with h | h
      · subst h
        exact Or.inr ⟨by simp, rfl⟩
      · rcases ih x h with ⟨c, hc1, hc2, hc3, hc4⟩ | ⟨h1, h2⟩
        · exact Or.inl ⟨c, List.mem_cons_of_mem _ hc1, hc2, hc3, hc4⟩
        · exact Or.inr ⟨List.mem_cons_of_mem _ h1, h2⟩

theorem subtreeMem_nonelem {e n : Node} (h : SubtreeMem e n) (hn : n.isElem = false) :
    e = n := by
  cases h with
  | refl => rfl
  | child hm _ =>
    match n, hn with
    | .text s, _ => simp [Node.children] at hm
    | .comment s, _ => simp [Node.children] at hm

theorem isElem_element (t : String) (a : List (String × String)) (cs : List Node) :
    (Node.element t a cs).isElem = true := rfl

theorem isElem_text (s : String) : (Node.text s).isElem = false := rfl

theorem isElem_comment (s : String) : (Node.comment s).isElem = false := rfl

theorem strip_nonelem_children :
    ∀ (cs : List Node),
      (stripNACL cs).filter (fun c => !c.isElem) = cs.filter (fun c => !c.isElem) := by
  intro cs
  induction cs with
  | nil => simp [stripNACL]
  | cons hd tl ih =>
    match hd with
    | .element t a k =>
      simp only [stripNACL]
      by_cases hattr : containsAttribution (.element t a k) = true
      · rw [if_pos hattr]
        simp only [List.cons_append, List.nil_append, List.filter_cons, strip_elem,
          isElem_element]
        simp [ih]
      · rw [if_neg hattr]
        simp only [List.nil_append, List.filter_cons, isElem_element]
        simp [ih]
    | .text s =>
      simp only [stripNACL, List.filter_cons, isElem_text]
      simp [ih]
    | .comment s =>
      simp only [stripNACL, List.filter_cons, isElem_comment]
      simp [ih]

/-- Every node kept on an attribution chain keeps its text and comment
children verbatim after pruning. -/
theorem strip_keeps_text_comment_children (d : Node) :
    (stripNonAttributionChildren d).children.filter (fun c => !c.isElem) =
      d.children.filter (fun c => !c.isElem) := by
  match d with
  | .element t a cs =>
    rw [strip_elem]
    simp only [Node.children]
    exact strip_nonelem_children cs
  | .text s => rfl
  | .comment s => rfl

theorem attrChain_subtree : ∀ {n d : Node}, AttrChain n d →
    SubtreeMem (stripNonAttributionChildren d) (stripNonAttributionChildren n) := by
  intro n d h
  induction h with
  | refl => exact .refl _
  | step hprev hm he hc ih =>
    refine SubtreeMem.trans ?_ ih
    refine SubtreeMem.child ?_ (.refl _)
    rw [strip_elem]
    simp only [Node.children]
    exact mem_stripNACL _ _ hm he hc

theorem strip_only_attrchain : ∀ (n e : Node),
    SubtreeMem e (stripNonAttributionChildren n) → e.isElem = true →
    ∃ d, AttrChain n d ∧ e = stripNonAttributionChildren d := by
  intro n
  induction n using Node.inductionOn with
  | htext s =>
    intro e hmem helem
    have he := subtreeMem_nonelem hmem (by rfl)
    subst he
    simp [stripNonAttributionChildren, Node.isElem] at helem
  | hcomment s =>
    intro e hmem helem
    have he := subtreeMem_nonelem hmem (by rfl)
    subst he
    simp [stripNonAttributionChildren, Node.isElem] at helem
  | helem t a cs ih =>
    intro e hmem helem
    rw [strip_elem] at hmem
    cases hmem with
    | refl => exact ⟨.element t a cs, .refl _, (strip_elem t a cs).symm⟩
    | child hm hsub =>
      simp only [Node.children] at hm
      rcases stripNACL_mem_inv cs _ hm with ⟨c, hc1, hc2, hc3, hc4⟩ | ⟨h1, h2⟩
      · subst hc4
        rcases ih c hc1 e hsub helem with ⟨d, hchain, hde⟩
        exact ⟨d, AttrChain.compose (AttrChain.step (.refl _) hc1 hc2 hc3) hchain, hde⟩
      · have he := subtreeMem_nonelem hsub h2
        subst he
        rw [helem] at h2
        exact absurd h2 (by simp)

/-! ## Claim theorems -/

/-- C1 (amended): for a noise-deny-list match with no force-include
sub-match: when it carries attribution it is kept, pruned to exactly those
element descendants reachable through an all-attribution chain (each kept in
pruned form), with text and comment children kept verbatim at every kept
level; when it does not carry attribution it is detached entirely.  (The
unamended claim — that *every* attribution-bearing element descendant
survives — fails: survival additionally requires every intermediate ancestor
to carry attribution; see the counterexample.) -/
theorem c1_noise_match_attribution (n : Node) (hforce : forceIncludeHit n = false) :
    (containsAttribution n = true →
      processNoiseMatch n = some (stripNonAttributionChildren n) ∧
      (∀ d, AttrChain n d →
        SubtreeMem (stripNonAttributionChildren d) (stripNonAttributionChildren n)) ∧
      (∀ e, SubtreeMem e (stripNonAttributionChildren n) → e.isElem = true →
        ∃ d, AttrChain n d ∧ e = stripNonAttributionChildren d) ∧
      (∀ d, AttrChain n d →
        (stripNonAttributionChildren d).children.filter (fun c => !c.isElem) =
          d.children.filter (fun c => !c.isElem))) ∧
    (containsAttribution n = false → processNoiseMatch n = none) := by
  constructor
  · intro hattr
    refine ⟨?_, fun d hd => attrChain_subtree hd, strip_only_attrchain n,
      fun d _ => strip_keeps_text_comment_children d⟩
    simp [processNoiseMatch, hforce, hattr]
  · intro hattr
    simp [processNoiseMatch, hforce, hattr]

def c1exampleNode : Node :=
  .element "footer" []
    [.text "© 2024 X",
     .element "div" [("class", "copyright")] [.text "y"],
     .element "div" [("class", "social")] [.text "z"]]

/-- Witness for C1's theorem at a concrete attribution-bearing noise match. -/
theorem c1_noise_match_attribution_witness :
    (containsAttribution c1exampleNode = true →
      processNoiseMatch c1exampleNode = some (stripNonAttributionChildren c1exampleNode) ∧
      (∀ d, AttrChain c1exampleNode d →
        SubtreeMem (stripNonAttributionChildren d)
          (stripNonAttributionChildren c1exampleNode)) ∧
      (∀ e, SubtreeMem e (stripNonAttributionChildren c1exampleNode) → e.isElem = true →
        ∃ d, AttrChain c1exampleNode d ∧ e = stripNonAttributionChildren d) ∧
      (∀ d, AttrChain c1exampleNode d →
        (stripNonAttributionChildren d).children.filter (fun c => !c.isElem) =
          d.children.filter (fun c => !c.isElem))) ∧
    (containsAttribution c1exampleNode = false →
      processNoiseMatch c1exampleNode = none) :=
  c1_noise_match_attribution c1exampleNode (by decide)

def c1cexMatch : Node :=
  .element "footer" []
    [.text "© 2024",
     .element "div" [] [.element "span" [("class", "Copyright")] [.text "x"]]]

def c1cexDescendant : Node := .element "span" [("class", "Copyright")] [.text "x"]

/-- C1 counterexample: the `footer` matches the noise deny-list, has no
force-include sub-match and carries attribution; the `span` is an
attribution-bearing element descendant (its own `class` check is ASCII
case-insensitive) — yet no `span` survives pruning, because its parent `div`
carries no attribution (the `[class*="copyright"]` selector is
case-sensitive). -/
theorem c1_counterexample :
    selMatches (.tagSel "footer") c1cexMatch = true ∧
    (Sel.tagSel "footer") ∈ EXCLUDE_NON_MAIN_TAGS ∧
    forceIncludeHit c1cexMatch = false ∧
    containsAttribution c1cexMatch = true ∧
    c1cexDescendant ∈ descendants c1cexMatch ∧
    c1cexDescendant.isElem = true ∧
    containsAttribution c1cexDescendant = true ∧
    processNoiseMatch c1cexMatch = some (stripNonAttributionChildren c1cexMatch) ∧
    countTag c1cexMatch "span" = 1 ∧
    countTag (stripNonAttributionChildren c1cexMatch) "span" = 0 := by decide

/-- C10: with `only_main_content` and `omce_signatures` set, mode extraction
(`x.split(':').nth(1).unwrap()`) is total exactly when every signature has at
least two `:`-separated segments; a colon-free signature makes
`transform_html` panic (not return an error value). -/
theorem c10_omce_mode_panic :
    (∀ sigs : List String, (∀ s ∈ sigs, 2 ≤ (splitOnChar ':' s).length) →
      (extractOmceModes sigs).isSome = true) ∧
    extractOmceModes ["nocolon"] = none ∧
    transformHtml sigFnStub
      ⟨.element "#document" [] [], "https://example.com", [], [], true, some ["nocolon"]⟩
      = .panic := by
  refine ⟨?_, by decide, by decide⟩
  intro sigs h
  induction sigs with
  | nil => simp [extractOmceModes]
  | cons s t ih =>
    have hs : 1 < (splitOnChar ':' s).length := h s (by simp)
    have ht := ih fun x hx => h x (by simp [hx])
    simp only [extractOmceModes]
    rw [List.get?_eq_get hs]
    obtain ⟨w, hw⟩ := Option.isSome_iff_exists.mp ht
    simp [hw]

/-- Witness for C10's totality clause at a concrete signature list. -/
theorem c10_omce_mode_panic_witness :
    (extractOmceModes ["aaa:mode1:xyz", "b:m2:c"]).isSome = true :=
  c10_omce_mode_panic.1 ["aaa:mode1:xyz", "b:m2:c"] (by decide)

/-- C6 (amended): `extract_base_href` fails iff the page URL is not a valid
absolute URL; with a `base[href]` whose join succeeds it returns the joined
URL's serialization; otherwise it returns the *serialization of the parsed
page URL*, which is normalized and need not be the identical input string
(see the counterexample). -/
theorem c6_extract_base_href (doc : Node) (url : String) :
    ((extractBaseHref doc url).isSome ↔ (MUrl.parse url).isSome) ∧
    (∀ u, MUrl.parse url = some u →
      (∀ b, (selectFirst (.tagAttrSel "base" "href") doc).bind (fun x => x.attr "href")
          = some b →
        (∀ j, u.join b = some j → extractBaseHref doc url = some j.toString) ∧
        (u.join b = none → extractBaseHref doc url = some u.toString)) ∧
      ((selectFirst (.tagAttrSel "base" "href") doc).bind (fun x => x.attr "href") = none →
        extractBaseHref doc url = some u.toString)) := by
  constructor
  · simp [extractBaseHref]
  · intro u hu
    constructor
    · intro b hb
      constructor
      · intro j hj
        simp [extractBaseHref, hu, extractBaseHrefFromDocument, hb, hj]
      · intro hj
        simp [extractBaseHref, hu, extractBaseHrefFromDocument, hb, hj]
    · intro hb
      simp [extractBaseHref, hu, extractBaseHrefFromDocument, hb]

def c6exampleDoc : Node :=
  .element "#document" []
    [.element "head" [] [.element "base" [("href", "/sub/")] []]]

/-- Witness for C6's theorem: a concrete document whose `base[href]` resolves
against the page URL. -/
theorem c6_extract_base_href_witness :
    extractBaseHref c6exampleDoc "https://example.com/x/y"
      = some (MUrl.toString ⟨"https", "example.com", ["sub", ""], none, none⟩) :=
  ((c6_extract_base_href c6exampleDoc "https://example.com/x/y").2
      ⟨"https", "example.com", ["x", "y"], none, none⟩ (by decide)).1
    "/sub/" (by decide) |>.1 ⟨"https", "example.com", ["sub", ""], none, none⟩ (by decide)

/-- C6 counterexample: with no `base[href]`, the returned string is the
normalized serialization of the page URL, not the string that was passed in
(a trailing slash is added). -/
theorem c6_counterexample :
    extractBaseHref (.element "#document" [] []) "https://example.com"
      = some "https://example.com/" ∧
    ("https://example.com/" : String) ≠ "https://example.com" := by decide

/-- C4 (amended): the title backfill never touches an existing `title`; when
`title` is absent it consults only the *first present* key among `ogTitle`,
`og:title`, `twitter:title` (in that order) and backfills only if that value
is a non-empty string — an empty string under an earlier present key
suppresses the later keys (see the counterexample). -/
theorem c4_title_backfill (out : MMap) :
    (∀ v, mmGet out "title" = some v → backfillTitle out = out) ∧
    (mmGet out "title" = none →
      (∀ s, mmGet out "ogTitle" = some (.str s) → s ≠ "" →
        mmGet (backfillTitle out) "title" = some (.str s)) ∧
      (mmGet out "ogTitle" = none →
        (∀ s, mmGet out "og:title" = some (.str s) → s ≠ "" →
          mmGet (backfillTitle out) "title" = some (.str s)) ∧
        (mmGet out "og:title" = none →
          ∀ s, mmGet out "twitter:title" = some (.str s) → s ≠ "" →
            mmGet (backfillTitle out) "title" = some (.str s))) ∧
      (mmGet out "ogTitle" = some (.str "") →
        mmGet (backfillTitle out) "title" = none)) := by
  constructor
  · intro v hv
    simp [backfillTitle, hv]
  · intro htitle
    refine ⟨?_, ?_, ?_⟩
    · intro s hs hne
      simp [backfillTitle, htitle, hs, Option.or, hne, mmGet_mmInsert_same]
    · intro hog
      refine ⟨?_, ?_⟩
      · intro s hs hne
        simp [backfillTitle, htitle, hog, hs, Option.or, hne, mmGet_mmInsert_same]
      · intro hog2 s hs hne
        simp [backfillTitle, htitle, hog, hog2, hs, Option.or, hne, mmGet_mmInsert_same]
    · intro hs
      simp [backfillTitle, htitle, hs, Option.or]

/-- Witness for C4's theorem at concrete metadata maps. -/
theorem c4_title_backfill_witness :
    mmGet (backfillTitle [("ogTitle", JVal.str "T")]) "title" = some (.str "T") :=
  ((c4_title_backfill [("ogTitle", JVal.str "T")]).2 (by decide)).1 "T" (by decide) (by decide)

def c4cexDoc : Node :=
  .element "#document" [] [.element "html" [] [
    .element "head" [] [
      .element "meta" [("property", "og:title"), ("content", "")] [],
      .element "meta" [("name", "twitter:title"), ("content", "Real Title")] []],
    .element "body" [] []]]

/-- C4 counterexample: `ogTitle` is present but empty while `twitter:title`
holds a non-empty string, yet no `title` is backfilled — the chain stops at
the first *present* key, not the first non-empty one. -/
theorem c4_counterexample :
    mmGet (extractMetadata c4cexDoc) "title" = none ∧
    mmGet (extractMetadata c4cexDoc) "ogTitle" = some (.str "") ∧
    mmGet (extractMetadata c4cexDoc) "twitter:title" = some (.str "Real Title") ∧
    ("Real Title" : String) ≠ "" := by decide

/-- The generic-pass merge never disturbs a string-valued `title`. -/
theorem mergeMetaContent_title_invariant (out : MMap) (name content t : String)
    (h : mmGet out "title" = some (.str t)) :
    mmGet (mergeMetaContent out name content) "title" = some (.str t) := by
  by_cases hn : name = "title"
  · subst hn
    simp [mergeMetaContent, h]
  · match hv : mmGet out name with
    | none => simp [mergeMetaContent, hv, mmGet_mmInsert_ne _ _ _ _ (fun hh => hn hh.symm), h]
    | some (.str e) =>
      simp only [mergeMetaContent, hv]
      by_cases hd : name = "description"
      · subst hd
        simp [mmGet_mmInsert_ne _ _ _ _ (by decide : ("title" : String) ≠ "description"), h]
      · simp [hd, hn, mmGet_mmInsert_ne _ _ _ _ (fun hh => hn hh.symm), h]
    | some (.arr e) =>
      simp only [mergeMetaContent, hv]
      by_cases hd : name = "description"
      · subst hd
        simp [mmGet_mmInsert_ne _ _ _ _ (by decide : ("title" : String) ≠ "description"), h]
      · simp [hd, mmGet_mmInsert_ne _ _ _ _ (fun hh => hn hh.symm), h]

theorem ogLocaleAlternatePass_arr (ms : List Node) :
    ∀ (out : MMap) (l0 : List String),
      mmGet out "ogLocaleAlternate" = some (.arr l0) →
      mmGet (ogLocaleAlternatePass out ms) "ogLocaleAlternate" =
        some (.arr (l0 ++ ms.filterMap (fun m => m.attr "content"))) := by
  induction ms with
  | nil => intro out l0 h; simpa [ogLocaleAlternatePass]
  | cons m t ih =>
    intro out l0 h
    match hc : m.attr "content" with
    | none =>
      have := ih out l0 h
      simpa [ogLocaleAlternatePass, hc, List.filterMap_cons] using this
    | some c =>
      have step : mmGet (mmInsert out "ogLocaleAlternate" (.arr (l0 ++ [c])))
          "ogLocaleAlternate" = some (.arr (l0 ++ [c])) := mmGet_mmInsert_same _ _ _
      have := ih (mmInsert out "ogLocaleAlternate" (.arr (l0 ++ [c]))) (l0 ++ [c]) step
      simp only [ogLocaleAlternatePass, List.foldl_cons, hc, h] at this ⊢
      rw [this]
      simp [List.filterMap_cons, hc]

/-- C3: the generic meta merge — two `description` values concatenate into a
single comma-joined string; two values under any other non-`title` key become
a two-element array and further values append to it; a string `title` is
never overwritten or arrayed; and the `og:locale:alternate` pass always
builds an array under `ogLocaleAlternate`, even for a single occurrence. -/
theorem c3_metadata_merge :
    (∀ (out : MMap) (a b : String), mmGet out "description" = none →
      mmGet (mergeMetaContent (mergeMetaContent out "description" a) "description" b)
        "description" = some (.str (a ++ ", " ++ b))) ∧
    (∀ (out : MMap) (k a b c : String), k ≠ "description" → k ≠ "title" →
      mmGet out k = none →
      mmGet (mergeMetaContent (mergeMetaContent out k a) k b) k = some (.arr [a, b]) ∧
      mmGet (mergeMetaContent (mergeMetaContent (mergeMetaContent out k a) k b) k c) k
        = some (.arr [a, b, c])) ∧
    (∀ (metas : List Node) (out : MMap) (t : String),
      mmGet out "title" = some (.str t) →
      mmGet (genericMetaPass out metas) "title" = some (.str t)) ∧
    (∀ (out : MMap) (ms : List Node), mmGet out "ogLocaleAlternate" = none →
      mmGet (ogLocaleAlternatePass out ms) "ogLocaleAlternate" =
        (match ms.filterMap (fun m => m.attr "content") with
         | [] => none
         | l => some (.arr l))) := by
  refine ⟨?_, ?_, ?_, ?_⟩
  · intro out a b h
    simp [mergeMetaContent, h, mmGet_mmInsert_same]
  · intro out k a b c hd ht h
    constructor
    · simp [mergeMetaContent, h, mmGet_mmInsert_same, hd, ht]
    · simp [mergeMetaContent, h, mmGet_mmInsert_same, hd, ht]
  · intro metas
    induction metas with
    | nil => intro out t h; simpa [genericMetaPass]
    | cons m rest ih =>
      intro out t h
      simp only [genericMetaPass, List.foldl_cons] at ih ⊢
      match hk : metaKeyOf m with
      | none => simp only [hk]; exact ih out t h
      | some name =>
        match hc : m.attr "content" with
        | none => simp only [hk, hc]; exact ih out t h
        | some content =>
          simp only [hk, hc]
          exact ih _ t (mergeMetaContent_title_invariant out name content t h)
  · intro out ms
    induction ms generalizing out with
    | nil => intro h; simpa [ogLocaleAlternatePass]
    | cons m t ih =>
      intro h
      match hc : m.attr "content" with
      | none =>
        have goal2 := ih out h
        simp only [ogLocaleAlternatePass, List.foldl_cons, hc] at goal2 ⊢
        rw [goal2]
        simp [List.filterMap_cons, hc]
      | some c =>
        have step : mmGet (mmInsert out "ogLocaleAlternate" (.arr [c]))
            "ogLocaleAlternate" = some (.arr [c]) := mmGet_mmInsert_same _ _ _
        have haux := ogLocaleAlternatePass_arr t
          (mmInsert out "ogLocaleAlternate" (.arr [c])) [c] step
        simp only [ogLocaleAlternatePass, List.foldl_cons, hc, h] at haux ⊢
        rw [haux]
        simp [List.filterMap_cons, hc]

def c3exampleLocaleMeta : Node :=
  .element "meta" [("property", "og:locale:alternate"), ("content", "fr_FR")] []

/-- Witness for C3's theorem at concrete maps and meta elements. -/
theorem c3_metadata_merge_witness :
    mmGet (mergeMetaContent (mergeMetaContent [] "description" "d1") "description" "d2")
      "description" = some (.str ("d1" ++ ", " ++ "d2")) ∧
    mmGet (mergeMetaContent (mergeMetaContent [] "keywords" "k1") "keywords" "k2")
      "keywords" = some (.arr ["k1", "k2"]) ∧
    mmGet (genericMetaPass [("title", JVal.str "T")] [c3exampleLocaleMeta]) "title"
      = some (.str "T") ∧
    mmGet (ogLocaleAlternatePass [] [c3exampleLocaleMeta]) "ogLocaleAlternate"
      = some (.arr ["fr_FR"]) := by
  refine ⟨c3_metadata_merge.1 [] "d1" "d2" rfl,
    (c3_metadata_merge.2.1 [] "keywords" "k1" "k2" "k3" (by decide) (by decide) rfl).1,
    c3_metadata_merge.2.2.1 [c3exampleLocaleMeta] [("title", JVal.str "T")] "T" rfl,
    ?_⟩
  have := c3_metadata_merge.2.2.2 [] [c3exampleLocaleMeta] rfl
  simpa using this

theorem setAttr_attr_same (n : Node) (k v : String) (h : n.isElem = true) :
    (n.setAttr k v).attr k = some v := by
  match n with
  | .element t a cs => simp [Node.setAttr, Node.attr, getAttrL_setAttrL_same]
  | .text s => simp [Node.isElem] at h
  | .comment s => simp [Node.isElem] at h

theorem setAttr_attr_ne (n : Node) (k k2 v : String) (h : k2 ≠ k) :
    (n.setAttr k v).attr k2 = n.attr k2 := by
  match n with
  | .element t a cs => simp [Node.setAttr, Node.attr, getAttrL_setAttrL_ne _ _ _ _ h]
  | .text s => rfl
  | .comment s => rfl


/-- C2: srcset resolution — `srcset` itself is never modified; with no
surviving candidate (and no `src` fallback) the element is untouched; the
head of the stable descending sort is a maximal candidate and its URL is
written into `src`; the implicit `1x` candidate synthesized from `src` (when
every parsed candidate is a density descriptor) loses whenever some parsed
candidate's descriptor exceeds 1; unparsable candidates are dropped silently
by construction. -/
theorem c2_srcset_resolution (tg : String) (attrs : List (String × String))
    (cs : List Node) (ss : String) (hss : getAttrL attrs "srcset" = some ss) :
    (resolveSrcsetImg (.element tg attrs cs)).attr "srcset" = some ss ∧
    (srcsetWithSrcFallback (parseSrcset ss) (getAttrL attrs "src") = [] →
      resolveSrcsetImg (.element tg attrs cs) = .element tg attrs cs) ∧
    (∀ x, (sortDescIS (srcsetWithSrcFallback (parseSrcset ss)
        (getAttrL attrs "src"))).head? = some x →
      (resolveSrcsetImg (.element tg attrs cs)).attr "src" = some x.url ∧
      x ∈ srcsetWithSrcFallback (parseSrcset ss) (getAttrL attrs "src") ∧
      ∀ y ∈ srcsetWithSrcFallback (parseSrcset ss) (getAttrL attrs "src"),
        y.size ≤ x.size) ∧
    (∀ u, getAttrL attrs "src" = some u → (parseSrcset ss).all (·.is_x) = true →
      (∃ c ∈ parseSrcset ss, 1 < c.size) →
      ∀ x, (sortDescIS (srcsetWithSrcFallback (parseSrcset ss)
          (getAttrL attrs "src"))).head? = some x → x ∈ parseSrcset ss) ∧
    parseSrcset ss = (splitOnChar ',' ss).filterMap parseSrcsetCandidate := by
  have hres : ∀ b, (sortDescIS (srcsetWithSrcFallback (parseSrcset ss)
      (getAttrL attrs "src"))).head? = some b →
      resolveSrcsetImg (.element tg attrs cs)
        = (Node.element tg attrs cs).setAttr "src" b.url := by
    intro b hb
    simp only [resolveSrcsetImg, Node.attr, hss, hb]
  have hresn : (sortDescIS (srcsetWithSrcFallback (parseSrcset ss)
      (getAttrL attrs "src"))).head? = none →
      resolveSrcsetImg (.element tg attrs cs) = .element tg attrs cs := by
    intro hb
    simp only [resolveSrcsetImg, Node.attr, hss, hb]
  refine ⟨?_, ?_, ?_, ?_, rfl⟩
  · match hh : (sortDescIS (srcsetWithSrcFallback (parseSrcset ss)
        (getAttrL attrs "src"))).head? with
    | some b =>
      rw [hres b hh, setAttr_attr_ne _ _ _ _ (by decide)]
      exact hss
    | none =>
      rw [hresn hh]
      exact hss
  · intro hempty
    have hh : (sortDescIS (srcsetWithSrcFallback (parseSrcset ss)
        (getAttrL attrs "src"))).head? = none := by
      rw [hempty]
      rfl
    exact hresn hh
  · intro x hx
    have hmax := sortDescIS_head_max _ x hx
    refine ⟨?_, hmax.1, hmax.2⟩
    rw [hres x hx]
    exact setAttr_attr_same (.element tg attrs cs) "src" x.url (by rfl)
  · intro u hu hall hbig x hx
    have hmax := sortDescIS_head_max _ x hx
    obtain ⟨c, hc, hcsize⟩ := hbig
    have hfb : srcsetWithSrcFallback (parseSrcset ss) (getAttrL attrs "src")
        = parseSrcset ss ++ [⟨u, 1, true⟩] := by
      simp [srcsetWithSrcFallback, hall, hu]
    have hcmem : c ∈ srcsetWithSrcFallback (parseSrcset ss) (getAttrL attrs "src") := by
      rw [hfb]
      exact List.mem_append_left _ hc
    have hxsize : 1 < x.size := lt_of_lt_of_le hcsize (hmax.2 c hcmem)
    have hxmem := hmax.1
    rw [hfb] at hxmem
    rcases List.mem_append.mp hxmem with h | h
    · exact h
    · simp at h
      rw [h] at hxsize
      norm_num at hxsize

/-- Witness for C2's theorem at a concrete `img[srcset]` element: the `2x`
candidate wins and `srcset` is untouched. -/
theorem c2_srcset_resolution_witness :
    (resolveSrcsetImg
        (.element "img" [("src", "small.jpg"), ("srcset", "a.jpg 2x, b.jpg 1x")] [])).attr
      "srcset" = some "a.jpg 2x, b.jpg 1x" ∧
    (resolveSrcsetImg
        (.element "img" [("src", "small.jpg"), ("srcset", "a.jpg 2x, b.jpg 1x")] [])).attr
      "src" = some "a.jpg" := by
  have h := c2_srcset_resolution "img" [("src", "small.jpg"), ("srcset", "a.jpg 2x, b.jpg 1x")]
    [] "a.jpg 2x, b.jpg 1x" rfl
  exact ⟨h.1, (h.2.2.1 ⟨"a.jpg", 2, true⟩ (by decide)).1⟩

theorem eraseAttrs_elem (t : String) (a : List (String × String)) (cs : List Node) :
    eraseAttrs (.element t a cs) = .element t [] (eraseAttrsL cs) := by
  simp [eraseAttrs]

theorem eraseAttrs_setAttr (n : Node) (k v : String) :
    eraseAttrs (n.setAttr k v) = eraseAttrs n := by
  match n with
  | .element t a cs => simp [Node.setAttr, eraseAttrs]
  | .text s => rfl
  | .comment s => rfl

theorem eraseAttrsL_mapNodesL (p : Node → Bool) (f : Node → Node) (l : List Node)
    (h : ∀ c ∈ l, eraseAttrs (mapNodes p f c) = eraseAttrs c) :
    eraseAttrsL (mapNodesL p f l) = eraseAttrsL l := by
  induction l with
  | nil => rfl
  | cons c t ih =>
    simp only [mapNodesL, eraseAttrsL]
    rw [h c (by simp), ih (fun x hx => h x (by simp [hx]))]

/-- A per-node attribute rewrite (one that preserves the erased shape of
every node it touches) preserves the erased shape of the whole tree. -/
theorem eraseAttrs_mapNodes (p : Node → Bool) (f : Node → Node)
    (hf : ∀ m, eraseAttrs (f m) = eraseAttrs m) :
    ∀ n, eraseAttrs (mapNodes p f n) = eraseAttrs n := by
  intro n
  induction n using Node.inductionOn with
  | htext s =>
    simp only [mapNodes]
    by_cases hp : p (.text s) = true
    · simp [hp, hf]
    · simp [hp]
  | hcomment s =>
    simp only [mapNodes]
    by_cases hp : p (.comment s) = true
    · simp [hp, hf]
    · simp [hp]
  | helem t a cs ih =>
    have hlist := eraseAttrsL_mapNodesL p f cs ih
    simp only [mapNodes]
    by_cases hp : p (.element t a cs) = true
    · simp only [hp, if_true]
      match hf2 : f (.element t a cs) with
      | .element t2 a2 cs2 =>
        have hshape := hf (.element t a cs)
        rw [hf2] at hshape
        rw [eraseAttrs_elem, eraseAttrs_elem] at hshape
        injection hshape with ht _
        rw [eraseAttrs_elem, eraseAttrs_elem, hlist, ht]
      | .text s2 =>
        have hshape := hf (.element t a cs)
        rw [hf2] at hshape
        simp [eraseAttrs] at hshape
      | .comment s2 =>
        have hshape := hf (.element t a cs)
        rw [hf2] at hshape
        simp [eraseAttrs] at hshape
    · simp only [hp, if_false, Bool.false_eq_true]
      rw [eraseAttrs_elem, eraseAttrs_elem, hlist]

theorem eraseAttrs_resolveSrcsetImg (n : Node) :
    eraseAttrs (resolveSrcsetImg n) = eraseAttrs n := by
  unfold resolveSrcsetImg
  split
  · rfl
  · dsimp only
    split
    · exact eraseAttrs_setAttr _ _ _
    · rfl

theorem eraseAttrs_absolutizeStep (url : MUrl) (key : String) (m : Node) :
    eraseAttrs (match m.attr key with
      | some old =>
        match url.join old with
        | some newU => m.setAttr key newU.toString
        | none => m
      | none => m) = eraseAttrs m := by
  split
  · split
    · exact eraseAttrs_setAttr _ _ _
    · rfl
  · rfl

/-- C5 (amended): with `include_tags` and `exclude_tags` empty and
`only_main_content=false`, a successful `transform_html` changes only
attributes: the shape of the output (tags, text, comments, nesting) is
exactly the input's shape after removing the subtrees rooted at `head`,
`meta`, `noscript`, `style` and `script` elements.  (The unamended claim —
that every element other than those five appears in the output — fails for
elements nested *inside* a stripped subtree; see the counterexample.) -/
theorem c5_transform_frame (sigFn : Node → String → String)
    (opts : TransformHtmlOptions) (r : Node)
    (h1 : opts.include_tags = []) (h2 : opts.exclude_tags = [])
    (h3 : opts.only_main_content = false)
    (h4 : transformHtml sigFn opts = .ok r) :
    eraseAttrs r = eraseAttrs (pruneBy isStructTag opts.doc) := by
  unfold transformHtml at h4
  split at h4
  · simp at h4
  · split at h4
    · simp at h4
    · rename_i pageUrl hu url hb
      simp only [h1, h2, h3] at h4
      simp at h4
      subst h4
      rw [eraseAttrs_mapNodes _ _ (eraseAttrs_absolutizeStep url "href"),
        eraseAttrs_mapNodes _ _ (eraseAttrs_absolutizeStep url "src"),
        eraseAttrs_mapNodes _ _ eraseAttrs_resolveSrcsetImg]

def c5exampleDoc : Node :=
  .element "#document" [] [.element "html" [] [
    .element "head" [] [],
    .element "body" [] [
      .element "noscript" [] [.element "div" [] [.text "inner"]],
      .element "p" [] [.text "hi"]]]]

def c5exampleResult : Node :=
  .element "#document" [] [.element "html" [] [
    .element "body" [] [.element "p" [] [.text "hi"]]]]

/-- Witness for C5's theorem at a concrete transform call. -/
theorem c5_transform_frame_witness :
    eraseAttrs c5exampleResult = eraseAttrs (pruneBy isStructTag c5exampleDoc) :=
  c5_transform_frame sigFnStub ⟨c5exampleDoc, "https://example.com", [], [], false, none⟩
    c5exampleResult rfl rfl rfl (by decide)

/-- C5 counterexample: the input `div` is none of the five structurally
stripped tags, `only_main_content` is false and no include/exclude tags are
set — yet the `div` is absent from the output, because it sits inside a
stripped `noscript` subtree. -/
theorem c5_counterexample :
    countTag c5exampleDoc "div" = 1 ∧
    STRUCT_TAGS.contains "div" = false ∧
    (transformHtml sigFnStub
        ⟨c5exampleDoc, "https://example.com", [], [], false, none⟩).okNode.map
      (fun r => countTag r "div") = some 0 := by decide

/-- The depth in force at each character (after that character's own bracket
update, matching the source's scan order). -/
def depthsAfter (depth : Nat) : List Char → List Nat
  | [] => []
  | c :: t => bracketDepthStep depth c :: depthsAfter (bracketDepthStep depth c) t

/-- Claim-side escaping: every character maps to itself, except a literal
newline at positive depth, which maps to backslash-newline; order and all
other characters are untouched. -/
def escapeSpec (l : List Char) (depth : Nat) : List Char :=
  ((l.zip (depthsAfter depth l)).map fun p =>
    if p.1 = '\n' ∧ 0 < p.2 then ['\\', '\n'] else [p.1]).flatten

theorem escape_eq_escapeSpec : ∀ (l : List Char) (d : Nat),
    escapeLinkNewlines l d = escapeSpec l d := by
  intro l
  induction l with
  | nil => intro d; rfl
  | cons c t ih =>
    intro d
    have hspec : escapeSpec (c :: t) d =
        (if c = '\n' ∧ 0 < bracketDepthStep d c then ['\\', '\n'] else [c]) ++
          escapeSpec t (bracketDepthStep d c) := by
      simp [escapeSpec, depthsAfter]
    rw [hspec, ← ih]
    simp only [escapeLinkNewlines]
    by_cases hc : c = '\n'
    · subst hc
      by_cases h0 : bracketDepthStep d '\n' = 0
      · simp [h0]
      · simp [h0, Nat.pos_of_ne_zero h0]
    · simp [hc]

theorem matchLabelCI_decomp :
    ∀ (p l r : List Char), matchLabelCI p l = some r →
      ∃ lab, l = lab ++ r ∧ lab.length = p.length ∧
        (lab.zip p).all (fun q => q.1.toLower = q.2.toLower) = true := by
  intro p
  induction p with
  | nil =>
    intro l r h
    simp [matchLabelCI] at h
    exact ⟨[], by simp [h], rfl, rfl⟩
  | cons c cr ih =>
    intro l r h
    cases l with
    | nil => simp [matchLabelCI] at h
    | cons x xs =>
      simp only [matchLabelCI] at h
      split at h
      · rename_i hx
        obtain ⟨lab, h1, h2, h3⟩ := ih xs r h
        refine ⟨x :: lab, by simp [h1], by simp [h2], ?_⟩
        simp [List.zip_cons_cons, h3, hx]
      · simp at h

theorem findCloseParen_decomp :
    ∀ (l r : List Char), findCloseParen l = some r →
      ∃ pre, l = pre ++ ')' :: r ∧ ')' ∉ pre := by
  intro l
  induction l with
  | nil => intro r h; simp [findCloseParen] at h
  | cons c t ih =>
    intro r h
    simp only [findCloseParen] at h
    split at h
    · rename_i hc
      simp at h
      subst h
      subst hc
      exact ⟨[], rfl, by simp⟩
    · rename_i hc
      obtain ⟨pre, h1, h2⟩ := ih r h
      refine ⟨c :: pre, by simp [h1], ?_⟩
      simp only [List.mem_cons, not_or]
      exact ⟨fun hh => hc hh.symm, h2⟩

/-- C7: `post_process_markdown` is escape-then-strip: pass 1 equals the
claim's per-character description (each newline at positive bracket depth
becomes backslash-newline, all other characters pass through in order); pass
2 skips exactly the spans `[<label>](#<frag>)` whose label equals
`Skip to Content` ASCII case-insensitively and whose destination starts with
`#`, the span ending at the first `)`, and copies every other character. -/
theorem c7_post_process_markdown :
    (∀ s, postProcessMarkdown s = ⟨removeSkipLinks (escapeLinkNewlines s.data 0)⟩) ∧
    (∀ (l : List Char) (d : Nat), escapeLinkNewlines l d = escapeSpec l d) ∧
    (∀ t r, skipLinkRest t = some r →
      removeSkipLinks ('[' :: t) = removeSkipLinks r) ∧
    (∀ c t, (c = '[' → skipLinkRest t = none) →
      removeSkipLinks (c :: t) = c :: removeSkipLinks t) ∧
    (∀ t r, skipLinkRest t = some r →
      ∃ lab frag, t = lab ++ ']' :: '(' :: '#' :: (frag ++ ')' :: r) ∧
        lab.length = ("Skip to Content".data).length ∧
        (lab.zip "Skip to Content".data).all
          (fun q => q.1.toLower = q.2.toLower) = true ∧
        ')' ∉ frag) := by
  refine ⟨fun s => rfl, escape_eq_escapeSpec, ?_, ?_, ?_⟩
  · intro t r h
    simp only [removeSkipLinks]
    split
    · split
      · rename_i after h1
        have hra := h.symm.trans h1
        injection hra with hra
        rw [hra]
      · rename_i h1
        rw [h] at h1
        simp at h1
    · rename_i hfalse
      exact absurd trivial hfalse
  · intro c t h
    simp only [removeSkipLinks]
    split
    · rename_i hceq
      rw [h hceq]
    · rfl
  · intro t r h
    simp only [skipLinkRest] at h
    split at h
    · rename_i rest hm
      obtain ⟨pre, hp1, hp2⟩ := findCloseParen_decomp _ _ h
      obtain ⟨lab, hl1, hl2, hl3⟩ := matchLabelCI_decomp _ _ _ hm
      subst hp1
      exact ⟨lab, pre, by simpa using hl1, hl2, hl3, hp2⟩
    · simp at h

/-- Witness for C7's theorem: a concrete skip link is removed and a concrete
escape run matches the spec formulation. -/
theorem c7_post_process_markdown_witness :
    removeSkipLinks ('[' :: "Skip to Content](#main) rest".data) =
      removeSkipLinks " rest".data ∧
    escapeLinkNewlines "[a\nb](url)".data 0 = escapeSpec "[a\nb](url)".data 0 := by
  constructor
  · exact c7_post_process_markdown.2.2.1 "Skip to Content](#main) rest".data
      " rest".data (by decide)
  · exact c7_post_process_markdown.2.1 "[a\nb](url)".data 0

/-! ## C8: link harvesting -/

/-- Claim-side repair: the missing slash is *inserted* after the 6-character
`http:/` prefix (respectively the 7-character `https:/` prefix); every other
value passes through unchanged. -/
def repairHrefSpec (href : String) : String :=
  if strStartsWith href "http:/" && !strStartsWith href "http://" then
    ⟨href.data.take 6 ++ '/' :: href.data.drop 6⟩
  else if strStartsWith href "https:/" && !strStartsWith href "https://" then
    ⟨href.data.take 7 ++ '/' :: href.data.drop 7⟩
  else href

theorem repairHref_eq_spec (s : String) : repairHref s = repairHrefSpec s := by
  unfold repairHref repairHrefSpec
  split
  · rename_i hc
    have h1 := (Bool.and_eq_true _ _).mp hc |>.1
    have hpre : "http:/".data <+: s.data :=
      List.isPrefixOf_iff_prefix.mp h1
    obtain ⟨rest, hrest⟩ := hpre
    have htake : s.data.take 6 = "http:/".data := by
      rw [← hrest]
      exact List.take_left' (by decide)
    have hdrop : s.data.drop 6 = rest := by
      rw [← hrest]
      exact List.drop_left' (by decide)
    show String.mk ("http://".data ++ (strDrop s 6).data) = _
    simp only [strDrop, htake, hdrop]
    rfl
  · split
    · rename_i hc
      have h1 := (Bool.and_eq_true _ _).mp hc |>.1
      have hpre : "https:/".data <+: s.data :=
        List.isPrefixOf_iff_prefix.mp h1
      obtain ⟨rest, hrest⟩ := hpre
      have htake : s.data.take 7 = "https:/".data := by
        rw [← hrest]
        exact List.take_left' (by decide)
      have hdrop : s.data.drop 7 = rest := by
        rw [← hrest]
        exact List.drop_left' (by decide)
      show String.mk ("https://".data ++ (strDrop s 7).data) = _
      simp only [strDrop, htake, hdrop]
      rfl
    · rfl

/-- C8: `extract_links` returns the `href` of every `a[href]` element in
document order — no deduplication, no other validation — with the single
repair of inserting the missing slash after a bare `http:/` or `https:/`
prefix, and passes every other value through unchanged. -/
theorem c8_extract_links :
    (∀ doc, extractLinks (some doc) =
      (selectAll (.tagAttrSel "a" "href") doc).filterMap
        (fun a => (a.attr "href").map repairHrefSpec)) ∧
    extractLinks none = [] ∧
    (∀ s, strStartsWith s "http:/" = false → strStartsWith s "https:/" = false →
      repairHrefSpec s = s) := by
  refine ⟨?_, rfl, ?_⟩
  · intro doc
    simp only [extractLinks]
    have hfun : (fun a : Node => (a.attr "href").map repairHref) =
        (fun a : Node => (a.attr "href").map repairHrefSpec) := by
      funext a
      cases a.attr "href" with
      | none => rfl
      | some v => simp [repairHref_eq_spec]
    rw [hfun]
  · intro s h1 h2
    simp [repairHrefSpec, h1, h2]

/-- Witness for C8's pass-through clause at a concrete non-matching value. -/
theorem c8_extract_links_witness :
    repairHrefSpec "ftp://x" = "ftp://x" ∧ extractLinks none = [] :=
  ⟨c8_extract_links.2.2 "ftp://x" (by decide) (by decide), c8_extract_links.2.1⟩

/-! ## C9: attribute extraction -/

/-- Claim-side per-entry values: a malformed selector yields no matches; per
matched element the requested attribute, else (unless it already starts with
`data-`) the `data-`-prefixed variant. -/
def attrValuesSpec (doc : Node) (sc : AttributeSelector) : List String :=
  match parseSelector sc.selector with
  | none => []
  | some sel =>
    (selectAll sel doc).filterMap fun e =>
      (e.attr sc.attrName).or
        (if strStartsWith sc.attrName "data-" then none
         else e.attr ("data-" ++ sc.attrName))

/-- C9: `extract_attributes` returns one result per input entry, in input
order, carrying the entry's selector and attribute name and the claim-side
values: empty on a malformed selector, with the `data-` fallback applied per
matched element. -/
theorem c9_extract_attributes (doc : Node) (sels : List AttributeSelector) :
    extractAttributes doc sels =
      sels.map (fun sc => ⟨sc.selector, sc.attrName, attrValuesSpec doc sc⟩) ∧
    (∀ sc : AttributeSelector, parseSelector sc.selector = none →
      attrValuesSpec doc sc = []) := by
  constructor
  · simp only [extractAttributes]
    apply List.map_congr_left
    intro sc _
    dsimp only
    congr 1
    simp only [attrValuesSpec]
    match hp : parseSelector sc.selector with
    | none => rfl
    | some sel =>
      have hfun : (fun e : Node =>
          match e.attr sc.attrName with
          | some v => some v
          | none =>
            if !strStartsWith sc.attrName "data-" then
              e.attr ("data-" ++ sc.attrName)
            else none) =
          (fun e : Node =>
            (e.attr sc.attrName).or
              (if strStartsWith sc.attrName "data-" then none
               else e.attr ("data-" ++ sc.attrName))) := by
        funext e
        cases hae : e.attr sc.attrName with
        | some v => rfl
        | none =>
          cases hsw : strStartsWith sc.attrName "data-" <;> simp [Option.or]
      rw [hfun]
  · intro sc h
    simp [attrValuesSpec, h]

/-- Witness for C9's theorem at a concrete document and selector list, with
the malformed-selector clause discharged on the empty selector. -/
theorem c9_extract_attributes_witness :
    extractAttributes (Node.element "a" [("data-id", "7")] [])
        [⟨"a", "id"⟩, ⟨"", "id"⟩] =
      [⟨"a", "id", ["7"]⟩, ⟨"", "id", []⟩] ∧
    attrValuesSpec (Node.element "a" [("data-id", "7")] []) ⟨"", "id"⟩ = [] := by
  have h := c9_extract_attributes (Node.element "a" [("data-id", "7")] [])
    [⟨"a", "id"⟩, ⟨"", "id"⟩]
  refine ⟨?_, h.2 ⟨"", "id"⟩ (by rfl)⟩
  rw [h.1]
  rfl
